import Mathlib

/-!
Shallow embedding of the citibike analytical query engine:
`processShardData` from `src/lib/queryProcessor.ts` (the record pipeline) and
`transformGroup` from the index processor (the rollup aggregator).

JavaScript numbers are modelled as `JNum`: an exact rational together with the
special values `Infinity`, `-Infinity` and `NaN`.  (Every finite IEEE double
denotes a rational, so rational arithmetic is an exact model of the values the
engine actually manipulates; floating-point rounding of intermediate results is
not modelled.)  Dynamically typed JavaScript values are modelled as `JValue`,
and plain JS objects as insertion-ordered association lists over `String`.
-/

set_option autoImplicit false

/-- Model of a JavaScript number: a rational, or one of the IEEE specials. -/
inductive JNum where
  | num (q : ℚ)
  | posInf
  | negInf
  | nan
deriving DecidableEq, Repr

namespace JNum

/-- JS falsiness of a number: `0`, `-0` and `NaN` are falsy. -/
def falsy : JNum → Bool
  | .num q => q == 0
  | .nan => true
  | _ => false

/-- The JS expression `a || d` where `a` is a number: `d` when `a` is falsy. -/
def orElse (a d : JNum) : JNum := if a.falsy then d else a

/-- JS `+` on numbers. -/
def add : JNum → JNum → JNum
  | .nan, _ => .nan
  | _, .nan => .nan
  | .posInf, .negInf => .nan
  | .negInf, .posInf => .nan
  | .posInf, _ => .posInf
  | _, .posInf => .posInf
  | .negInf, _ => .negInf
  | _, .negInf => .negInf
  | .num p, .num q => .num (p + q)

/-- JS `Math.min` on two numbers (`NaN` propagates). -/
def jmin : JNum → JNum → JNum
  | .nan, _ => .nan
  | _, .nan => .nan
  | .negInf, _ => .negInf
  | _, .negInf => .negInf
  | .posInf, b => b
  | a, .posInf => a
  | .num p, .num q => .num (min p q)

/-- JS `Math.max` on two numbers (`NaN` propagates). -/
def jmax : JNum → JNum → JNum
  | .nan, _ => .nan
  | _, .nan => .nan
  | .posInf, _ => .posInf
  | _, .posInf => .posInf
  | .negInf, b => b
  | a, .negInf => a
  | .num p, .num q => .num (max p q)

/-- JS `<` on numbers: false whenever either side is `NaN`. -/
def ltb : JNum → JNum → Bool
  | .nan, _ => false
  | _, .nan => false
  | .negInf, .negInf => false
  | .negInf, _ => true
  | _, .negInf => false
  | .posInf, _ => false
  | _, .posInf => true
  | .num p, .num q => decide (p < q)

/-- JS `<=` on numbers: false whenever either side is `NaN`. -/
def leb : JNum → JNum → Bool
  | .nan, _ => false
  | _, .nan => false
  | .negInf, _ => true
  | _, .negInf => false
  | _, .posInf => true
  | .posInf, _ => false
  | .num p, .num q => decide (p ≤ q)

/-- JS `>=` on numbers. -/
def geb (a b : JNum) : Bool := leb b a

/-- JS `===` on numbers: `NaN` is not equal to itself. -/
def eqb : JNum → JNum → Bool
  | .nan, _ => false
  | _, .nan => false
  | .posInf, .posInf => true
  | .negInf, .negInf => true
  | .num p, .num q => p == q
  | _, _ => false

/-- JS `/` on numbers. The sign of a zero divisor is not modelled (`ℚ` has a
single zero), so `x / 0` follows the `+0` branch. -/
def div : JNum → JNum → JNum
  | .nan, _ => .nan
  | _, .nan => .nan
  | .posInf, .posInf => .nan
  | .posInf, .negInf => .nan
  | .negInf, .posInf => .nan
  | .negInf, .negInf => .nan
  | .posInf, .num q => if q < 0 then .negInf else .posInf
  | .negInf, .num q => if q < 0 then .posInf else .negInf
  | .num _, .posInf => .num 0
  | .num _, .negInf => .num 0
  | .num p, .num q =>
      if q = 0 then (if p = 0 then .nan else if p > 0 then .posInf else .negInf)
      else .num (p / q)

end JNum

/-- JS `Math.round` on a finite value: ties are rounded toward `+∞`
(`Math.round 0.5 = 1`, `Math.round (-0.5) = 0`). -/
def jsRound (q : ℚ) : ℤ := ⌊q + 1 / 2⌋

/-- JS `Math.round` lifted to `JNum` (`NaN` and the infinities are fixed). -/
def JNum.round : JNum → JNum
  | .num q => .num (jsRound q)
  | n => n

/-- The rounding policy named by the documentation: ties away from zero. -/
def specRoundHalfAwayFromZero (q : ℚ) : ℤ :=
  if 0 ≤ q then ⌊q + 1 / 2⌋ else -⌊-q + 1 / 2⌋

/-- Model of a dynamically typed JavaScript value as the engine encounters
them: strings, numbers, booleans, `undefined`, and arrays. -/
inductive JValue where
  | str (s : String)
  | jnum (n : JNum)
  | jbool (b : Bool)
  | undefined
  | arr (xs : List JValue)
deriving Repr

/-- Decimal digits of a positive natural, most significant first (fuel-driven
so that it reduces definitionally). -/
def natDigitsAux : Nat → Nat → List Char
  | _, 0 => []
  | 0, _ => []
  | fuel + 1, n => natDigitsAux fuel (n / 10) ++ [Char.ofNat (48 + n % 10)]

/-- Decimal string of a natural number, as JS `String(n)` renders it. -/
def natToString (n : Nat) : String :=
  if n = 0 then "0" else String.mk (natDigitsAux (n + 1) n)

/-- Decimal string of an integer, as JS `String(i)` renders it. -/
def intToString (i : Int) : String :=
  if i < 0 then "-" ++ natToString i.natAbs else natToString i.toNat

/-- Decimal rendering of a rational whose denominator divides a power of ten.
Every finite JS number is a dyadic rational, so this covers every value the
engine can produce; the exponent notation JS uses for very large or very small
magnitudes is not modelled. -/
def ratToString (q : ℚ) : String :=
  let sign := if q < 0 then "-" else ""
  let a := q.num.natAbs
  let b := q.den
  match (List.range 400).find? (fun k => decide (b ∣ 10 ^ k)) with
  | some 0 => sign ++ natToString (a / b)
  | some k =>
      let scaled := a * 10 ^ k / b
      let ip := scaled / 10 ^ k
      let fp := scaled % 10 ^ k
      let fpDigits := natToString fp
      let pad := String.mk (List.replicate (k - fpDigits.length) '0')
      sign ++ natToString ip ++ "." ++ pad ++ fpDigits
  | none => sign ++ natToString a ++ "/" ++ natToString b

/-- JS `String(n)` for a number. -/
def JNum.render : JNum → String
  | .num q => ratToString q
  | .posInf => "Infinity"
  | .negInf => "-Infinity"
  | .nan => "NaN"

/-- `join(",")` on already-rendered elements. -/
def joinStrings : List String → String
  | [] => ""
  | [s] => s
  | s :: rest => s ++ "," ++ joinStrings rest

-- Elements of a JS array render as `""` when `undefined`, inside `join`.
mutual

/-- JS `String(v)` / `Array.prototype.toString`. -/
def jsToString : JValue → String
  | .str s => s
  | .jnum n => n.render
  | .jbool b => if b then "true" else "false"
  | .undefined => "undefined"
  | .arr xs => joinStrings (jsToStringItems xs)

/-- Render the elements of an array for `join(",")`. -/
def jsToStringItems : List JValue → List String
  | [] => []
  | .undefined :: vs => "" :: jsToStringItems vs
  | v :: vs => jsToString v :: jsToStringItems vs

end

/-- Numeric value of a run of decimal digits. -/
def digitsVal (cs : List Char) : Nat :=
  cs.foldl (fun a c => 10 * a + (c.toNat - 48)) 0

/-- Parse an unsigned decimal literal (`"12"`, `"12.5"`, `".5"`, `"12."`),
exactly the fragment of the JS `Number()` grammar the engine's data can
contain (exponent and hex forms are not modelled). -/
def parseUnsigned (cs : List Char) : Option ℚ :=
  let ip := cs.takeWhile Char.isDigit
  let rest := cs.drop ip.length
  match rest with
  | [] => if ip.isEmpty then none else some (digitsVal ip)
  | '.' :: fp =>
      if fp.all Char.isDigit && !(ip.isEmpty && fp.isEmpty) then
        some ((digitsVal ip : ℚ) + (digitsVal fp : ℚ) / (10 : ℚ) ^ fp.length)
      else none
  | _ => none

/-- JS `Number(s)` on a string: trimmed, `""` is `0`, signed decimal
literals and the `Infinity` literals parse, anything else is `NaN`. -/
def strToNumber (s : String) : JNum :=
  match s.trim.toList with
  | [] => .num 0
  | '-' :: rest =>
      if rest = "Infinity".toList then .negInf
      else match parseUnsigned rest with
           | some q => .num (-q)
           | none => .nan
  | '+' :: rest =>
      if rest = "Infinity".toList then .posInf
      else match parseUnsigned rest with
           | some q => .num q
           | none => .nan
  | cs =>
      if cs = "Infinity".toList then .posInf
      else match parseUnsigned cs with
           | some q => .num q
           | none => .nan

/-- JS `Number(v)`.  An array coerces through its string rendering. -/
def toNumber : JValue → JNum
  | .jnum n => n
  | .jbool b => .num (if b then 1 else 0)
  | .undefined => .nan
  | .str s => strToNumber s
  | .arr xs => strToNumber (jsToString (.arr xs))

/-- JS truthiness of a value. -/
def jsTruthy : JValue → Bool
  | .str s => s ≠ ""
  | .jnum n => !n.falsy
  | .jbool b => b
  | .undefined => false
  | .arr _ => true

/-- JS `===`.  Arrays compare by reference; the two operands of every `===`
in the engine come from distinct parses, so array comparison is `false`. -/
def jsStrictEq : JValue → JValue → Bool
  | .str a, .str b => a == b
  | .jnum a, .jnum b => a.eqb b
  | .jbool a, .jbool b => a == b
  | .undefined, .undefined => true
  | _, _ => false

/-- JS `v[i]` for a natural index: array element, character of a string
(as a one-character string), `undefined` otherwise. -/
def jsIndex : JValue → Nat → JValue
  | .arr xs, i => (xs.get? i).getD .undefined
  | .str s, i =>
      match s.toList.get? i with
      | some c => .str (String.mk [c])
      | none => .undefined
  | _, _ => .undefined

/-- JS `a < b`: lexicographic when both sides are strings, numeric otherwise
(comparison is by unicode scalar value, as for JS strings of BMP text). -/
def jsLt (a b : JValue) : Bool :=
  match a, b with
  | .str s, .str t => decide (s < t)
  | _, _ => (toNumber a).ltb (toNumber b)

/-- JS `a > b`. -/
def jsGt (a b : JValue) : Bool := jsLt b a

/-- Does `needle` occur at the head of `hay`? -/
def headMatches : List Char → List Char → Bool
  | [], _ => true
  | _ :: _, [] => false
  | n :: ns, h :: hs => n == h && headMatches ns hs

/-- Does `needle` occur anywhere in `hay`?  (JS `String.prototype.includes`.) -/
def hasSeg (needle : List Char) : List Char → Bool
  | [] => needle.isEmpty
  | h :: hs => headMatches needle (h :: hs) || hasSeg needle hs

/-- JS `hay.includes(needle)`. -/
def jsIncludes (hay needle : String) : Bool := hasSeg needle.toList hay.toList

/-- JS `String.prototype.split` with a single-character separator (every
separator the engine uses — `' '`, `':'`, `'.'`, `'-'`, `'→'` — is a single
unicode scalar). -/
def splitOnChar (sep : Char) : List Char → List (List Char)
  | [] => [[]]
  | c :: cs =>
      let r := splitOnChar sep cs
      if c = sep then [] :: r
      else (c :: r.headD []) :: r.tail

/-- `splitOnChar` lifted to `String`. -/
def jsSplit (sep : Char) (s : String) : List String :=
  (splitOnChar sep s.toList).map String.mk

/-- JS `parseInt(s)` restricted to nonnegative decimal input: value of the
leading digit run, `NaN` (here `none`) when there is none. -/
def parseIntPrefixNat (s : String) : Option Nat :=
  let ds := s.toList.takeWhile Char.isDigit
  if ds.isEmpty then none else some (digitsVal ds)

/-- A JS plain object as the pipeline sees it: an insertion-ordered
association list (keys are unique for every object the engine builds). -/
abbrev Row := List (String × JValue)

/-- JS property read `r[k]`: `undefined` when the key is absent. -/
def Row.get (r : Row) (k : String) : JValue :=
  match r.find? (fun p => p.1 == k) with
  | some p => p.2
  | none => .undefined

/-- JS property write `r[k] = v`: overwrite in place when the key exists,
append otherwise (JS preserves the insertion position of existing keys). -/
def Row.set : Row → String → JValue → Row
  | [], k, v => [(k, v)]
  | (k', v') :: rest, k, v =>
      if k' = k then (k, v) :: rest else (k', v') :: Row.set rest k v

/-- Days from 1970-01-01 to the civil date `y-m-d` (proleptic Gregorian). -/
def daysFromCivil (y m d : ℤ) : ℤ :=
  let y' := if m ≤ 2 then y - 1 else y
  let era := Int.fdiv y' 400
  let yoe := y' - era * 400
  let mp := Int.emod (m + 9) 12
  let doy := Int.fdiv (153 * mp + 2) 5 + d - 1
  let doe := yoe * 365 + Int.fdiv yoe 4 - Int.fdiv yoe 100 + doy
  era * 146097 + doe - 719468

/-- Are all characters decimal digits, and is the list nonempty? -/
def allDigits (cs : List Char) : Bool := !cs.isEmpty && cs.all Char.isDigit

/-- Parse `"YYYY-MM-DD HH:MM:SS.mmm"` — the fixed trip-timestamp format — to
milliseconds since the epoch, as JS `new Date(s).getTime()` does (the engine
only ever takes differences and weekday/hour components, so the time zone
offset of the host is irrelevant and the model works in UTC).  Strings not in
this format give `none`, as `new Date` gives an invalid date. -/
def parseTs (s : String) : Option ℤ :=
  match jsSplit ' ' s with
  | [d, t] =>
      match jsSplit '-' d, jsSplit ':' t with
      | [ys, mos, das], [hs, mis, rest] =>
          match jsSplit '.' rest with
          | [ses, mss] =>
              if allDigits ys.toList && allDigits mos.toList && allDigits das.toList &&
                 allDigits hs.toList && allDigits mis.toList && allDigits ses.toList &&
                 allDigits mss.toList then
                let y := digitsVal ys.toList
                let mo := digitsVal mos.toList
                let da := digitsVal das.toList
                let h := digitsVal hs.toList
                let mi := digitsVal mis.toList
                let se := digitsVal ses.toList
                let ms := digitsVal mss.toList
                if 1 ≤ mo && mo ≤ 12 && 1 ≤ da && da ≤ 31 &&
                   h ≤ 23 && mi ≤ 59 && se ≤ 59 && ms ≤ 999 then
                  some (daysFromCivil y mo da * 86400000 +
                        (h : ℤ) * 3600000 + (mi : ℤ) * 60000 + (se : ℤ) * 1000 + ms)
                else none
              else none
          | _ => none
      | _, _ => none
  | _ => none

/-- The weekday table of the query processor's `day_of_week` branches. -/
def daysOfWeekTable : List String :=
  ["Sunday", "Monday", "Tuesday", "Wednesday", "Thursday", "Friday", "Saturday"]

/-- JS `new Date(s).getDay()` for a trip timestamp: 0 = Sunday.  The epoch
1970-01-01 was a Thursday. -/
def jsGetDay (epochMs : ℤ) : Nat :=
  (Int.emod (Int.fdiv epochMs 86400000 + 4) 7).toNat

/-- The value of `days[new Date(s).getDay()]`: a weekday name, or `undefined`
when the date is invalid (JS indexes the table with `NaN`). -/
def dayOfWeekValue (s : String) : JValue :=
  match parseTs s with
  | some ms => ((daysOfWeekTable.get? (jsGetDay ms)).map JValue.str).getD .undefined
  | none => .undefined

/-- `parseInt(s.split(' ')[1].split(':')[0])` — the hour the engine reads
directly off a timestamp string.  `none` stands for JS `NaN` (no digits) and
also for the exception JS raises when the string has no space-separated
second component. -/
def hourFromStr (s : String) : Option Nat :=
  match (jsSplit ' ' s).get? 1 with
  | none => none
  | some t => parseIntPrefixNat ((jsSplit ':' t).headD "")

/-- The hour the filter stage computes from a record's `started_at` value,
as a JS number.  A non-string value is modelled as `NaN` (in JS it would
raise; the engine's trip records always carry string timestamps). -/
def hourNumOf (v : JValue) : JNum :=
  match v with
  | .str s =>
      match hourFromStr s with
      | some n => .num n
      | none => .nan
  | _ => .nan

/-- A filter entry of a query plan.  The operation is an open string: the
planner is untrusted and may send names outside the documented six. -/
structure FilterSpec where
  field : String
  operation : String
  value : JValue
deriving Repr

/-- A derived-field entry of a query plan. -/
structure CalcSpec where
  name : String
  operation : String
deriving Repr

/-- The aggregate entry of a query plan. -/
structure AggregateSpec where
  operation : String
  field : String
deriving Repr

/-- The sort entry of a query plan. -/
structure OrderSpec where
  field : String
  direction : String
deriving Repr

/-- A record query plan (`QueryPlan` in `queryProcessor.ts`); every stage is
optional. -/
structure QueryPlan where
  filters : Option (List FilterSpec) := none
  calculate : Option (List CalcSpec) := none
  groupBy : Option String := none
  aggregate : Option AggregateSpec := none
  orderBy : Option OrderSpec := none
  limit : Option ℤ := none
deriving Repr

/-- A trip event record (`Trip` in `queryProcessor.ts`). -/
structure Trip where
  ride_id : String
  rideable_type : String
  started_at : String
  ended_at : String
  start_station_name : String
  start_station_id : String
  end_station_name : String
  end_station_id : String
  start_lat : ℚ
  start_lng : ℚ
  end_lat : ℚ
  end_lng : ℚ
  member_casual : String
deriving Repr

/-- The spread `{...trip}` of a trip record: a plain object whose keys follow
the interface's field order. -/
def tripToRow (t : Trip) : Row :=
  [("ride_id", .str t.ride_id),
   ("rideable_type", .str t.rideable_type),
   ("started_at", .str t.started_at),
   ("ended_at", .str t.ended_at),
   ("start_station_name", .str t.start_station_name),
   ("start_station_id", .str t.start_station_id),
   ("end_station_name", .str t.end_station_name),
   ("end_station_id", .str t.end_station_id),
   ("start_lat", .jnum (.num t.start_lat)),
   ("start_lng", .jnum (.num t.start_lng)),
   ("end_lat", .jnum (.num t.end_lat)),
   ("end_lng", .jnum (.num t.end_lng)),
   ("member_casual", .str t.member_casual)]

/-- `Math.round((new Date(ended_at) - new Date(started_at)) / 60000)`:
the `duration_minutes` computation.  An unparseable timestamp gives an
invalid date, whose `getTime()` is `NaN`. -/
def durationMinutes (startedAt endedAt : JValue) : JNum :=
  match startedAt, endedAt with
  | .str s, .str e =>
      match parseTs s, parseTs e with
      | some a, some b => .num (jsRound (((b : ℚ) - (a : ℚ)) / 60000))
      | _, _ => .nan
  | _, _ => .nan

/-- The `hour_of_day` computation:
`parseInt(started_at.split(' ')[1].split(':')[0])`. -/
def hourOfDayValue (startedAt : JValue) : JNum := hourNumOf startedAt

/-- One `calculate` entry applied to the accumulated copy `acc`; all reads go
to the original record `orig`, exactly as the arrow function closes over
`trip` while writing to `calculated`.  An operation outside the documented
four falls through the `switch` and writes nothing. -/
def applyCalc (orig : Row) (acc : Row) (c : CalcSpec) : Row :=
  match c.operation with
  | "duration_minutes" =>
      acc.set c.name (.jnum (durationMinutes (orig.get "started_at") (orig.get "ended_at")))
  | "hour_of_day" =>
      acc.set c.name (.jnum (hourOfDayValue (orig.get "started_at")))
  | "is_round_trip" =>
      acc.set c.name (.jbool (jsStrictEq (orig.get "start_station_id") (orig.get "end_station_id")))
  | "day_of_week" =>
      acc.set c.name (match orig.get "started_at" with
                      | .str s => dayOfWeekValue s
                      | _ => .undefined)
  | _ => acc

/-- Stage 1 of `processShardData`: derived fields, skipped when the plan has
no `calculate` list. -/
def calcStage (calculate : Option (List CalcSpec)) (data : List Row) : List Row :=
  match calculate with
  | some calcs => data.map (fun r => calcs.foldl (applyCalc r) r)
  | none => data

/-- The six documented filter operations. -/
def knownFilterOps : List String :=
  ["equals", "hour_between", "greater_than", "less_than", "contains", "day_of_week"]

/-- One filter predicate evaluated on a record, following the `switch` in the
filter callback; an unknown operation hits the `default` branch and returns
`true`. -/
def evalFilter (r : Row) (f : FilterSpec) : Bool :=
  let value := r.get f.field
  match f.operation with
  | "equals" => jsStrictEq value f.value
  | "hour_between" =>
      let hour := hourNumOf (r.get "started_at")
      hour.geb (toNumber (jsIndex f.value 0)) && hour.ltb (toNumber (jsIndex f.value 1))
  | "greater_than" => jsGt value f.value
  | "less_than" => jsLt value f.value
  | "contains" =>
      jsIncludes (jsToString value).toLower (jsToString f.value).toLower
  | "day_of_week" =>
      (match r.get "started_at" with
       | .str s => jsStrictEq (dayOfWeekValue s) f.value
       | _ => jsStrictEq .undefined f.value)
  | _ => true

/-- Does a record survive the whole filter list (`filters.every(...)`)? -/
def filtersKeep (fs : List FilterSpec) (r : Row) : Bool := fs.all (evalFilter r)

/-- The diagnostic the `default` branch emits for one filter. -/
def filterWarning (f : FilterSpec) : List String :=
  if f.operation ∈ knownFilterOps then [] else ["Unknown filter operation: " ++ f.operation]

/-- `filters.every(...)` on one record together with the diagnostics emitted
along the way; `every` short-circuits at the first failing predicate. -/
def runFilters (fs : List FilterSpec) (r : Row) : Bool × List String :=
  match fs with
  | [] => (true, [])
  | f :: rest =>
      if evalFilter r f then
        ((runFilters rest r).1, filterWarning f ++ (runFilters rest r).2)
      else (false, filterWarning f)

/-- Stage 2 of `processShardData`: filtering, skipped when the plan has no
`filters` list. -/
def filterStage (filters : Option (List FilterSpec)) (data : List Row) : List Row :=
  match filters with
  | some fs => data.filter (filtersKeep fs)
  | none => data

/-- Is `s` a canonical array-index property key (`"0"`, `"17"`, … with no
leading zeros, below `2^32 - 1`)?  Returns the numeric value when it is. -/
def arrayIndexOf (s : String) : Option Nat :=
  let ds := s.toList
  if allDigits ds && (natToString (digitsVal ds) == s) && decide (digitsVal ds < 2 ^ 32 - 1) then
    some (digitsVal ds)
  else none

/-- Stable insertion of `x` into `l`: before the first element `y` with
`le x y`.  `insSort` below is a stable sort for any total `le`, which is the
guarantee `Array.prototype.sort` gives for a consistent comparator. -/
def insOne {α : Type} (le : α → α → Bool) (x : α) : List α → List α
  | [] => [x]
  | y :: ys => if le x y then x :: y :: ys else y :: insOne le x ys

/-- Stable insertion sort. -/
def insSort {α : Type} (le : α → α → Bool) (l : List α) : List α :=
  l.foldr (insOne le) []

/-- Ascending order of array-index entry keys (indices are unique within one
object, so ties never arise). -/
def idxLe {α : Type} (a b : String × α) : Bool :=
  decide ((arrayIndexOf a.1).getD 0 ≤ (arrayIndexOf b.1).getD 0)

/-- Enumeration order of the own properties of a JS object
(`Object.values` / `Object.entries`): canonical array-index keys first in
ascending numeric order, then the remaining keys in insertion order. -/
def jsEntries {α : Type} (o : List (String × α)) : List (String × α) :=
  insSort idxLe (o.filter (fun p => (arrayIndexOf p.1).isSome)) ++
    o.filter (fun p => (arrayIndexOf p.1).isNone)

/-- Record one member under its group key: the `grouped[key]` upsert.  The
`count` field of a group always equals `items.length` (the two are updated in
lock step), so only the member list is stored. -/
def addToGroups (gs : List (String × List Row)) (k : String) (r : Row) :
    List (String × List Row) :=
  match gs with
  | [] => [(k, [r])]
  | (k', items) :: rest =>
      if k' = k then (k', items ++ [r]) :: rest
      else (k', items) :: addToGroups rest k r

/-- The group key of a record: `String(trip[groupBy])`. -/
def groupKeyOf (g : String) (r : Row) : String := jsToString (r.get g)

/-- The reduction of one group to its result row, following the `aggregate`
`switch`; `{ [groupBy]: key }` is the base object, and an unknown aggregate
operation falls through leaving only the key. -/
def aggregateGroup (g : String) (agg : Option AggregateSpec) (key : String)
    (items : List Row) : Row :=
  let base : Row := [(g, .str key)]
  match agg with
  | none => base
  | some a =>
      match a.operation with
      | "count" => base.set "count" (.jnum (.num items.length))
      | "sum" =>
          base.set "sum" (.jnum (items.foldl
            (fun acc it => acc.add ((toNumber (it.get a.field)).orElse (.num 0)))
            (.num 0)))
      | "avg" =>
          let s : JNum := items.foldl
            (fun acc it => acc.add ((toNumber (it.get a.field)).orElse (.num 0)))
            (.num 0)
          base.set "avg" (.jnum ((s.div (.num items.length)).round))
      | "min" =>
          base.set "min" (.jnum ((items.map
            (fun it => (toNumber (it.get a.field)).orElse JNum.posInf)).foldl
              JNum.jmin JNum.posInf))
      | "max" =>
          base.set "max" (.jnum ((items.map
            (fun it => (toNumber (it.get a.field)).orElse JNum.negInf)).foldl
              JNum.jmax JNum.negInf))
      | _ => base

/-- The insertion-ordered map the grouping loop builds:
`data.forEach(trip => { ... grouped[key] ... })`. -/
def groupedOf (g : String) (data : List Row) : List (String × List Row) :=
  data.foldl (fun gs r => addToGroups gs (groupKeyOf g r) r) []

/-- Stage 3 of `processShardData`: group and aggregate, skipped when
`groupBy` is absent — or the empty string, which is falsy in JS.
`Object.values(grouped)` enumerates in property order, and each group is
reduced to its result row. -/
def groupStage (groupBy : Option String) (agg : Option AggregateSpec)
    (data : List Row) : List Row :=
  match groupBy with
  | none => data
  | some g =>
      if g = "" then data
      else (jsEntries (groupedOf g data)).map (fun p => aggregateGroup g agg p.1 p.2)

/-- The numeric sort key of the order stage: `Number(row[field]) || 0`. -/
def orderKey (field : String) (r : Row) : JNum :=
  (toNumber (r.get field)).orElse (.num 0)

/-- The comparator `(aVal - bVal) * direction` keeps `a` before `b` exactly
when it is `≤ 0`; any direction string other than `"asc"` sorts descending. -/
def orderLe (ob : OrderSpec) (a b : Row) : Bool :=
  if ob.direction = "asc" then (orderKey ob.field a).leb (orderKey ob.field b)
  else (orderKey ob.field b).leb (orderKey ob.field a)

/-- Stage 4 of `processShardData`: sorting (stable, as JS guarantees). -/
def sortStage (orderBy : Option OrderSpec) (data : List Row) : List Row :=
  match orderBy with
  | none => data
  | some ob => insSort (orderLe ob) data

/-- JS `data.slice(0, n)`: a negative end counts back from the length. -/
def jsSlice (data : List Row) (n : ℤ) : List Row :=
  if 0 ≤ n then data.take n.toNat else data.take (data.length - n.natAbs)

/-- Stage 5 of `processShardData`: `if (queryPlan.limit)` — the stage runs
only when `limit` is present and nonzero (`0` is falsy in JS). -/
def limitStage (limit : Option ℤ) (data : List Row) : List Row :=
  match limit with
  | none => data
  | some n => if n ≠ 0 then jsSlice data n else data

/-- The record pipeline `processShardData(trips, queryPlan)`:
calculate → filter → group/aggregate → order → limit. -/
def processShardData (trips : List Trip) (queryPlan : QueryPlan) : List Row :=
  let data := trips.map tripToRow
  let data := calcStage queryPlan.calculate data
  let data := filterStage queryPlan.filters data
  let data := groupStage queryPlan.groupBy queryPlan.aggregate data
  let data := sortStage queryPlan.orderBy data
  limitStage queryPlan.limit data

/-- A `{name, count}` entry of a daily top-station list. -/
structure TopStation where
  name : String
  count : ℚ
deriving Repr, DecidableEq

/-- A `{from, to, count}` entry of a daily top-route list (`from` is a Lean
keyword, so the source's `from`/`to` fields are `fromName`/`toName` here). -/
structure TopRoute where
  fromName : String
  toName : String
  count : ℚ
deriving Repr, DecidableEq

/-- Geographic extrema of one day. -/
structure BoundingBox where
  north : ℚ
  south : ℚ
  east : ℚ
  west : ℚ
deriving Repr, DecidableEq

/-- Per-bike-type trip counts of one day. -/
structure BikeTypes where
  classic : ℚ
  electric : ℚ
deriving Repr, DecidableEq

/-- One pre-aggregated daily summary (`IndexDayData` in the index
processor). -/
structure IndexDayData where
  trip_count : ℚ
  member_trips : ℚ
  casual_trips : ℚ
  bike_types : BikeTypes
  peak_hour : ℚ
  hourly_distribution : List ℚ
  top_start_stations : List TopStation
  top_end_stations : List TopStation
  top_routes : List TopRoute
  bounding_box : BoundingBox
deriving Repr

/-- The merged result `transformGroup` builds for one bucket, before the
optional field projection (the projection stage writes these same fields into
a plain object; the claims under study concern the merged values
themselves). -/
structure PeriodRow where
  period : String
  trip_count : ℚ
  member_trips : ℚ
  casual_trips : ℚ
  classic_bikes : ℚ
  electric_bikes : ℚ
  hourly_distribution : List ℚ
  peak_hour : ℤ
  top_start_stations : List TopStation
  top_end_stations : List TopStation
  top_routes : List TopRoute
  bounding_box : BoundingBox
deriving Repr

/-- Add `c` at position `hour` of the accumulated histogram
(`result.hourly_distribution[hour] += count`).  The accumulator always has 24
entries; an index beyond its length is ignored (in JS a daily histogram
longer than 24 would extend the array — the documented invariant is that
daily histograms have exactly 24 entries). -/
def bumpAt : List ℚ → Nat → ℚ → List ℚ
  | [], _, _ => []
  | x :: xs, 0, c => (x + c) :: xs
  | x :: xs, n + 1, c => x :: bumpAt xs n c

/-- Pair each element with its position, the way `forEach((count, hour) =>`
sees it. -/
def withIdx {α : Type} (start : Nat) : List α → List (Nat × α)
  | [] => []
  | x :: xs => (start, x) :: withIdx (start + 1) xs

/-- Fold one day's histogram into the accumulator. -/
def histAdd (acc hist : List ℚ) : List ℚ :=
  (withIdx 0 hist).foldl (fun a p => bumpAt a p.1 p.2) acc

/-- `Math.max(...l)`: the spread of a list into `Math.max`.  The merged
histogram this is applied to always has 24 entries, so the empty case (JS
`-Infinity`) is unreachable and modelled as `0`. -/
def spreadMax : List ℚ → ℚ
  | [] => 0
  | x :: xs => xs.foldl max x

/-- `Math.min(...l)`; the empty case is unreachable for the bucket member
lists this is applied to. -/
def spreadMin : List ℚ → ℚ
  | [] => 0
  | x :: xs => xs.foldl min x

/-- JS `indexOf` on a list of numbers: first index of `v`, `-1` if absent. -/
def jsIndexOf (l : List ℚ) (v : ℚ) : ℤ :=
  match l.findIdx? (fun x => x == v) with
  | some i => (i : ℤ)
  | none => -1

/-- `counts[key] = (counts[key] || 0) + c`: the running-total upsert of the
top-list merge (a stored total is never `NaN` and only `0` coincides with the
`|| 0` fallback, so the JS expression is exactly "previous total or 0"). -/
def upsertAdd : List (String × ℚ) → String → ℚ → List (String × ℚ)
  | [], k, c => [(k, c)]
  | p :: ps, k, c => if p.1 == k then (p.1, p.2 + c) :: ps else p :: upsertAdd ps k c

/-- Look up a running total, `0` when the key is absent. -/
def getCount : List (String × ℚ) → String → ℚ
  | [], _ => 0
  | p :: ps, k => if p.1 == k then p.2 else getCount ps k

/-- Descending order by accumulated count (`.sort((a, b) => b[1] - a[1])`). -/
def countDescLe (a b : String × ℚ) : Bool := decide (b.2 ≤ a.2)

/-- `Object.entries(counts).sort(desc).slice(0, 10)`: the shared tail of the
three top-list merges. -/
def topEntries (counts : List (String × ℚ)) : List (String × ℚ) :=
  (insSort countDescLe (jsEntries counts)).take 10

/-- The route key `` `${route.from}→${route.to}` ``. -/
def routeKey (fromName toName : String) : String := fromName ++ "→" ++ toName

/-- The merged start-station running totals of a bucket. -/
def startStationCounts (days : List IndexDayData) : List (String × ℚ) :=
  days.foldl (fun o day =>
    day.top_start_stations.foldl (fun o s => upsertAdd o s.name s.count) o) []

/-- The merged end-station running totals of a bucket. -/
def endStationCounts (days : List IndexDayData) : List (String × ℚ) :=
  days.foldl (fun o day =>
    day.top_end_stations.foldl (fun o s => upsertAdd o s.name s.count) o) []

/-- The merged route running totals of a bucket, keyed by the concatenated
route key. -/
def routeCounts (days : List IndexDayData) : List (String × ℚ) :=
  days.foldl (fun o day =>
    day.top_routes.foldl (fun o r => upsertAdd o (routeKey r.fromName r.toName) r.count) o) []

/-- Rebuild a `{from, to, count}` entry from a route key:
`const [from, to] = key.split('→')`. -/
def routeOfEntry (p : String × ℚ) : TopRoute :=
  let parts := jsSplit '→' p.1
  { fromName := parts.headD "", toName := (parts.get? 1).getD "", count := p.2 }

/-- `transformGroup(key, days, plan)` of the index processor, before the
optional `plan.fields` projection: merge the member days of one bucket. -/
def transformGroup (key : String) (days : List IndexDayData) : PeriodRow :=
  let hist := days.foldl (fun acc day => histAdd acc day.hourly_distribution)
    (List.replicate 24 (0 : ℚ))
  { period := key
    trip_count := days.foldl (fun s day => s + day.trip_count) 0
    member_trips := days.foldl (fun s day => s + day.member_trips) 0
    casual_trips := days.foldl (fun s day => s + day.casual_trips) 0
    classic_bikes := days.foldl (fun s day => s + day.bike_types.classic) 0
    electric_bikes := days.foldl (fun s day => s + day.bike_types.electric) 0
    hourly_distribution := hist
    peak_hour := jsIndexOf hist (spreadMax hist)
    top_start_stations :=
      (topEntries (startStationCounts days)).map (fun p => ⟨p.1, p.2⟩)
    top_end_stations :=
      (topEntries (endStationCounts days)).map (fun p => ⟨p.1, p.2⟩)
    top_routes := (topEntries (routeCounts days)).map routeOfEntry
    bounding_box :=
      { north := spreadMax (days.map (fun d => d.bounding_box.north))
        south := spreadMin (days.map (fun d => d.bounding_box.south))
        east := spreadMax (days.map (fun d => d.bounding_box.east))
        west := spreadMin (days.map (fun d => d.bounding_box.west)) } }

/-! ### Concrete example inputs -/

/-- A well-formed trip record used by concrete witnesses: a 15.5-minute trip
started on Tuesday 2023-01-03 at 23:00. -/
def baseTrip : Trip :=
  { ride_id := "r1", rideable_type := "classic_bike",
    started_at := "2023-01-03 23:00:00.000", ended_at := "2023-01-03 23:15:30.000",
    start_station_name := "A", start_station_id := "s1",
    end_station_name := "B", end_station_id := "s2",
    start_lat := 40, start_lng := -74, end_lat := 41, end_lng := -74,
    member_casual := "member" }

/-- A trip whose end precedes its start by 15.5 minutes. -/
def tripNegDur : Trip :=
  { baseTrip with started_at := "2023-01-03 23:15:30.000",
                  ended_at := "2023-01-03 23:00:00.000" }

/-- A trip whose start latitude is the number `0`. -/
def tripLatZero : Trip := { baseTrip with start_lat := 0 }

/-- A trip starting from the station named `"5"`. -/
def tripFrom5 : Trip := { baseTrip with start_station_name := "5" }

/-- A trip starting from the station named `"3"`. -/
def tripFrom3 : Trip := { baseTrip with start_station_name := "3" }

/-- Trips started at 11:00, 12:00, 17:00 and 18:00, distinguishable by their
start-station names. -/
def tripAt11 : Trip :=
  { baseTrip with started_at := "2023-06-01 11:00:00.000",
                  ended_at := "2023-06-01 11:10:00.000", start_station_name := "A" }

def tripAt12 : Trip :=
  { baseTrip with started_at := "2023-06-01 12:00:00.000",
                  ended_at := "2023-06-01 12:10:00.000", start_station_name := "B" }

def tripAt17 : Trip :=
  { baseTrip with started_at := "2023-06-01 17:00:00.000",
                  ended_at := "2023-06-01 17:10:00.000", start_station_name := "C" }

def tripAt18 : Trip :=
  { baseTrip with started_at := "2023-06-01 18:00:00.000",
                  ended_at := "2023-06-01 18:10:00.000", start_station_name := "D" }

/-- The total of the values associated with name `n` in a flat pair list. -/
def pairTotal (L : List (String × ℚ)) (n : String) : ℚ :=
  ((L.filter (fun p => p.1 == n)).map (fun p => p.2)).sum

/-- Total count listed for the start station `n` across the member days. -/
def startTotal (days : List IndexDayData) (n : String) : ℚ :=
  ((((days.map (fun d => d.top_start_stations)).flatten).filter
      (fun s => s.name == n)).map (fun s => s.count)).sum

/-- Total count listed for the end station `n` across the member days. -/
def endTotal (days : List IndexDayData) (n : String) : ℚ :=
  ((((days.map (fun d => d.top_end_stations)).flatten).filter
      (fun s => s.name == n)).map (fun s => s.count)).sum

/-- Total count listed across the member days for the routes whose
concatenated key is `k`. -/
def routeKeyTotal (days : List IndexDayData) (k : String) : ℚ :=
  ((((days.map (fun d => d.top_routes)).flatten).filter
      (fun r => routeKey r.fromName r.toName == k)).map (fun r => r.count)).sum

/-- Total count listed across the member days for the exact route pair
`(f, t)`. -/
def routePairTotal (days : List IndexDayData) (f t : String) : ℚ :=
  ((((days.map (fun d => d.top_routes)).flatten).filter
      (fun r => r.fromName == f && r.toName == t)).map (fun r => r.count)).sum

/-- A daily summary whose only route has an arrow character inside its
destination station name. -/
def dayArrow : IndexDayData :=
  { trip_count := 1, member_trips := 1, casual_trips := 0,
    bike_types := ⟨1, 0⟩, peak_hour := 8,
    hourly_distribution := List.replicate 24 0,
    top_start_stations := [⟨"S1", 5⟩],
    top_end_stations := [⟨"E1", 4⟩],
    top_routes := [⟨"A", "B→C", 1⟩],
    bounding_box := ⟨1, 0, 1, 0⟩ }

/-- Two overlapping, arrow-free daily summaries. -/
def dayOne : IndexDayData :=
  { trip_count := 8, member_trips := 5, casual_trips := 3,
    bike_types := ⟨6, 2⟩, peak_hour := 8,
    hourly_distribution := List.replicate 24 0,
    top_start_stations := [⟨"S1", 5⟩, ⟨"S2", 3⟩],
    top_end_stations := [⟨"E1", 4⟩],
    top_routes := [⟨"A", "B", 2⟩],
    bounding_box := ⟨1, 0, 1, 0⟩ }

def dayTwo : IndexDayData :=
  { trip_count := 5, member_trips := 4, casual_trips := 1,
    bike_types := ⟨4, 1⟩, peak_hour := 9,
    hourly_distribution := List.replicate 24 0,
    top_start_stations := [⟨"S2", 4⟩],
    top_end_stations := [⟨"E1", 2⟩],
    top_routes := [⟨"A", "B", 1⟩],
    bounding_box := ⟨1, 0, 1, 0⟩ }

/-- The sequence of distinct values of `ks`, each at its first occurrence,
in order of first occurrence. -/
def firstOcc : List String → List String
  | [] => []
  | k :: ks => k :: (firstOcc ks).filter (fun x => !(x == k))

/-- Ascending order on the numeric values of array-index keys. -/
def keyLe (a b : String) : Bool :=
  decide ((arrayIndexOf a).getD 0 ≤ (arrayIndexOf b).getD 0)

/-! ### Generic lemmas about the sorting and folding combinators -/

section SortLemmas

variable {α : Type}

theorem insOne_perm (le : α → α → Bool) (x : α) (l : List α) :
    List.Perm (insOne le x l) (x :: l) := by
  induction l with
  | nil => simp [insOne]
  | cons y ys ih =>
      simp only [insOne]
      split
      · exact List.Perm.refl _
      · exact ((ih.cons y).trans (List.Perm.swap x y ys)).symm.symm

theorem insSort_perm (le : α → α → Bool) (l : List α) : List.Perm (insSort le l) l := by
  induction l with
  | nil => simp [insSort]
  | cons x xs ih =>
      simp only [insSort, List.foldr_cons]
      exact (insOne_perm le x _).trans (ih.cons x)

theorem mem_insSort (le : α → α → Bool) {x : α} {l : List α} :
    x ∈ insSort le l ↔ x ∈ l :=
  (insSort_perm le l).mem_iff

theorem insOne_pairwise (le : α → α → Bool)
    (htot : ∀ a b, le a b = false → le b a = true)
    (htrans : ∀ a b c, le a b = true → le b c = true → le a c = true)
    (x : α) (l : List α) (hl : l.Pairwise (fun a b => le a b = true)) :
    (insOne le x l).Pairwise (fun a b => le a b = true) := by
  induction l with
  | nil => simp [insOne]
  | cons y ys ih =>
      rcases hl with _ | ⟨hy, hys⟩
      simp only [insOne]
      split
      · next hxy =>
          refine List.Pairwise.cons ?_ (List.Pairwise.cons hy hys)
          intro z hz
          rcases List.mem_cons.mp hz with rfl | hz
          · exact hxy
          · exact htrans x y z hxy (hy z hz)
      · next hxy =>
          refine List.Pairwise.cons ?_ (ih hys)
          intro z hz
          rcases List.mem_cons.mp ((insOne_perm le x ys).mem_iff.mp hz) with hzx | hz
          · rw [hzx]; exact htot x y (by simpa using hxy)
          · exact hy z hz

theorem insSort_pairwise (le : α → α → Bool)
    (htot : ∀ a b, le a b = false → le b a = true)
    (htrans : ∀ a b c, le a b = true → le b c = true → le a c = true)
    (l : List α) : (insSort le l).Pairwise (fun a b => le a b = true) := by
  induction l with
  | nil => simp [insSort]
  | cons x xs ih =>
      simpa only [insSort, List.foldr_cons] using insOne_pairwise le htot htrans x _ ih

theorem insSort_length (le : α → α → Bool) (l : List α) :
    (insSort le l).length = l.length :=
  (insSort_perm le l).length_eq

theorem insSort_nodup (le : α → α → Bool) {l : List α} (h : l.Nodup) :
    (insSort le l).Nodup :=
  ((insSort_perm le l).nodup_iff).mpr h

end SortLemmas

section FoldLemmas

/-- Folding a double loop over a list of lists is a fold over the flattened
list. -/
theorem foldl_over_flatten {α β : Type} (step : β → α → β) :
    ∀ (ls : List (List α)) (o : β),
      ls.foldl (fun o l => l.foldl step o) o = ls.flatten.foldl step o := by
  intro ls
  induction ls with
  | nil => intro o; rfl
  | cons l ls ih => intro o; simp [List.foldl_append, ih]

theorem foldl_max_le {xs : List ℚ} {a : ℚ} : a ≤ xs.foldl max a := by
  induction xs generalizing a with
  | nil => simp
  | cons x xs ih => exact le_trans (le_max_left a x) ih

theorem foldl_max_ub {xs : List ℚ} {a x : ℚ} (hx : x ∈ xs) : x ≤ xs.foldl max a := by
  induction xs generalizing a with
  | nil => cases hx
  | cons y ys ih =>
      rcases List.mem_cons.mp hx with rfl | hx
      · exact le_trans (le_max_right a x) foldl_max_le
      · exact ih hx

theorem foldl_max_mem : ∀ (xs : List ℚ) (a : ℚ), xs.foldl max a = a ∨ xs.foldl max a ∈ xs := by
  intro xs
  induction xs with
  | nil => intro a; left; rfl
  | cons x xs ih =>
      intro a
      have hgoal : (x :: xs).foldl max a = xs.foldl max (max a x) := rfl
      rcases ih (max a x) with h | h
      · rcases max_choice a x with hm | hm
        · left; rw [hgoal, h, hm]
        · right; rw [hgoal, h, hm]; exact List.mem_cons_self x xs
      · right; rw [hgoal]; exact List.mem_cons_of_mem x h

theorem spreadMax_mem {l : List ℚ} (h : l ≠ []) : spreadMax l ∈ l := by
  cases l with
  | nil => cases h rfl
  | cons x xs =>
      rcases foldl_max_mem xs x with h' | h'
      · simp [spreadMax, h']
      · exact List.mem_cons_of_mem x (by simpa [spreadMax] using h')

theorem spreadMax_ub {l : List ℚ} {x : ℚ} (hx : x ∈ l) : x ≤ spreadMax l := by
  cases l with
  | nil => cases hx
  | cons y ys =>
      rcases List.mem_cons.mp hx with rfl | hx
      · simpa [spreadMax] using foldl_max_le
      · simpa [spreadMax] using foldl_max_ub hx

end FoldLemmas

section FindIdxLemmas

theorem findIdx?_some_spec (v : ℚ) :
    ∀ (l : List ℚ) (i : Nat), l.findIdx? (fun x => x == v) = some i →
      i < l.length ∧ l.getD i 0 = v ∧ ∀ j < i, l.getD j 0 ≠ v := by
  intro l
  induction l with
  | nil => intro i h; simp [List.findIdx?] at h
  | cons x xs ih =>
      intro i h
      rw [List.findIdx?_cons] at h
      by_cases hx : x = v
      · simp [hx] at h
        subst h
        exact ⟨by simp, by simp [hx], by omega⟩
      · simp [hx] at h
        rcases h with ⟨j, hj, rfl⟩
        obtain ⟨h1, h2, h3⟩ := ih j hj
        refine ⟨by simpa using h1, by simpa using h2, ?_⟩
        intro k hk
        cases k with
        | zero => simpa using hx
        | succ k => simpa using h3 k (by omega)

theorem findIdx?_mem (v : ℚ) :
    ∀ (l : List ℚ), v ∈ l → ∃ i, l.findIdx? (fun x => x == v) = some i := by
  intro l
  induction l with
  | nil => intro h; cases h
  | cons x xs ih =>
      intro h
      rw [List.findIdx?_cons]
      by_cases hx : x = v
      · exact ⟨0, by simp [hx]⟩
      · rcases List.mem_cons.mp h with rfl | h
        · exact absurd rfl hx
        · obtain ⟨i, hi⟩ := ih h
          exact ⟨i + 1, by simp [hx, hi]⟩

end FindIdxLemmas

/-! ### Lemmas about the record pipeline -/

theorem tripToRow_get_started_at (t : Trip) :
    (tripToRow t).get "started_at" = .str t.started_at := rfl

theorem tripToRow_get_ended_at (t : Trip) :
    (tripToRow t).get "ended_at" = .str t.ended_at := rfl

theorem runFilters_fst (fs : List FilterSpec) (r : Row) :
    (runFilters fs r).1 = filtersKeep fs r := by
  induction fs with
  | nil => rfl
  | cons f rest ih =>
      simp only [runFilters, filtersKeep, List.all_cons]
      by_cases hf : evalFilter r f
      · simp only [hf, if_true, Bool.true_and]
        exact ih
      · simp [hf]

theorem evalFilter_unknown (r : Row) (f : FilterSpec)
    (h : f.operation ∉ knownFilterOps) : evalFilter r f = true := by
  simp only [knownFilterOps, List.mem_cons, List.not_mem_nil, or_false, not_or] at h
  obtain ⟨h1, h2, h3, h4, h5, h6⟩ := h
  unfold evalFilter
  split <;> simp_all

theorem warning_mem_runFilters (r : Row) (f : FilterSpec) (post : List FilterSpec)
    (h : f.operation ∉ knownFilterOps) :
    ∀ pre, filtersKeep pre r = true →
      ("Unknown filter operation: " ++ f.operation) ∈ (runFilters (pre ++ f :: post) r).2 := by
  intro pre
  induction pre with
  | nil =>
      intro _
      simp only [List.nil_append, runFilters, evalFilter_unknown r f h, if_true]
      exact List.mem_append_left _ (by simp [filterWarning, h])
  | cons p ps ih =>
      intro hpre
      simp only [filtersKeep, List.all_cons, Bool.and_eq_true] at hpre
      simp only [List.cons_append, runFilters, hpre.1, if_true]
      exact List.mem_append_right _ (ih hpre.2)

/-! ### Claim theorems -/

/-- C6: a plan with no calculate, filters, groupBy, aggregate, orderBy or
limit returns the input records unchanged — the same fields with the same
values, in the same order. -/
theorem C6_empty_plan_identity (trips : List Trip) :
    processShardData trips {} = trips.map tripToRow := rfl

/-- C9: a plan whose `limit` field is `0` is treated as having no limit: the
truncation stage only runs for a nonzero limit, so the full row sequence is
returned. -/
theorem C9_limit_zero (trips : List Trip) (plan : QueryPlan)
    (h : plan.limit = some 0) :
    processShardData trips plan = processShardData trips { plan with limit := none } := by
  simp [processShardData, limitStage, h]

/-- Witness for C9 at a concrete plan and record list. -/
theorem C9_limit_zero_witness :
    ({ limit := some 0 : QueryPlan }).limit = some 0 ∧
    processShardData [baseTrip] { limit := some 0 } =
      processShardData [baseTrip] { ({ limit := some 0 : QueryPlan }) with limit := none } :=
  ⟨rfl, C9_limit_zero [baseTrip] { limit := some 0 } rfl⟩

/-- C4: a filter whose operation is not one of the six known operations
evaluates to `true` on every record (fail-open), leaves the conjunction of
the remaining filters to decide the record, and emits an
"Unknown filter operation" diagnostic whenever it is reached. -/
theorem C4_unknown_filter_fail_open (r : Row) (f : FilterSpec)
    (pre post : List FilterSpec) (h : f.operation ∉ knownFilterOps) :
    evalFilter r f = true ∧
    filtersKeep (pre ++ f :: post) r = filtersKeep (pre ++ post) r ∧
    (runFilters (pre ++ f :: post) r).1 = filtersKeep (pre ++ f :: post) r ∧
    (filtersKeep pre r = true →
      ("Unknown filter operation: " ++ f.operation) ∈ (runFilters (pre ++ f :: post) r).2) := by
  refine ⟨evalFilter_unknown r f h, ?_, runFilters_fst _ _, warning_mem_runFilters r f post h pre⟩
  simp [filtersKeep, List.all_append, List.all_cons, evalFilter_unknown r f h]

/-- Witness for C4: a concrete record, a `frobnicate` filter between two
`equals` filters. -/
theorem C4_unknown_filter_fail_open_witness :
    (⟨"x", "frobnicate", JValue.undefined⟩ : FilterSpec).operation ∉ knownFilterOps ∧
    (evalFilter (tripToRow baseTrip) ⟨"x", "frobnicate", JValue.undefined⟩ = true ∧
     filtersKeep [⟨"member_casual", "equals", .str "member"⟩, ⟨"x", "frobnicate", JValue.undefined⟩,
        ⟨"start_station_name", "equals", .str "A"⟩] (tripToRow baseTrip) =
       filtersKeep [⟨"member_casual", "equals", .str "member"⟩,
        ⟨"start_station_name", "equals", .str "A"⟩] (tripToRow baseTrip) ∧
     (runFilters [⟨"member_casual", "equals", .str "member"⟩, ⟨"x", "frobnicate", JValue.undefined⟩,
        ⟨"start_station_name", "equals", .str "A"⟩] (tripToRow baseTrip)).1 =
       filtersKeep [⟨"member_casual", "equals", .str "member"⟩, ⟨"x", "frobnicate", JValue.undefined⟩,
        ⟨"start_station_name", "equals", .str "A"⟩] (tripToRow baseTrip) ∧
     (filtersKeep [⟨"member_casual", "equals", .str "member"⟩] (tripToRow baseTrip) = true →
       ("Unknown filter operation: " ++ "frobnicate") ∈
         (runFilters [⟨"member_casual", "equals", .str "member"⟩, ⟨"x", "frobnicate", JValue.undefined⟩,
            ⟨"start_station_name", "equals", .str "A"⟩] (tripToRow baseTrip)).2)) :=
  ⟨by decide,
   C4_unknown_filter_fail_open (tripToRow baseTrip) ⟨"x", "frobnicate", JValue.undefined⟩
     [⟨"member_casual", "equals", .str "member"⟩]
     [⟨"start_station_name", "equals", .str "A"⟩] (by decide)⟩

/-- C5: a record survives an `hour_between [lo, hi]` filter exactly when
`lo ≤ h < hi` (half-open), where `h` is the hour parsed directly from the
record's `started_at` string — independent of any other field the record may
carry, such as a prior `hour_of_day` calculate result; and on records started
at 11:00, 12:00, 17:00 and 18:00 the filter `[12, 18)` retains exactly the
hour-12 and hour-17 records. -/
theorem C5_hour_between :
    (∀ (r : Row) (fld : String) (lo hi : ℚ) (s : String) (h : Nat),
        r.get "started_at" = .str s → hourFromStr s = some h →
        (evalFilter r ⟨fld, "hour_between", .arr [.jnum (.num lo), .jnum (.num hi)]⟩ = true ↔
          lo ≤ (h : ℚ) ∧ (h : ℚ) < hi)) ∧
    processShardData [tripAt11, tripAt12, tripAt17, tripAt18]
        { filters := some [⟨"hour", "hour_between", .arr [.jnum (.num 12), .jnum (.num 18)]⟩] } =
      [tripToRow tripAt12, tripToRow tripAt17] := by
  constructor
  · intro r fld lo hi s h hget hh
    simp only [evalFilter, hget, hourNumOf, hh, jsIndex, List.get?, Option.getD_some,
      toNumber, JNum.geb, JNum.leb, JNum.ltb, Bool.and_eq_true, decide_eq_true_eq]
  · rfl

/-- Witness for C5 at the hour-12 record under the `[12, 18)` filter. -/
theorem C5_hour_between_witness :
    (tripToRow tripAt12).get "started_at" = .str "2023-06-01 12:00:00.000" ∧
    hourFromStr "2023-06-01 12:00:00.000" = some 12 ∧
    (evalFilter (tripToRow tripAt12)
        ⟨"hour", "hour_between", .arr [.jnum (.num 12), .jnum (.num 18)]⟩ = true ↔
      (12 : ℚ) ≤ ((12 : Nat) : ℚ) ∧ ((12 : Nat) : ℚ) < 18) :=
  ⟨rfl, rfl,
   C5_hour_between.1 (tripToRow tripAt12) "hour" 12 18 "2023-06-01 12:00:00.000" 12 rfl rfl⟩

theorem processShardData_single_duration (t : Trip) (n : String) (a b : ℤ)
    (h1 : parseTs t.started_at = some a) (h2 : parseTs t.ended_at = some b) :
    processShardData [t] { calculate := some [⟨n, "duration_minutes"⟩] } =
      [(tripToRow t).set n (.jnum (.num (jsRound (((b : ℚ) - (a : ℚ)) / 60000))))] := by
  simp [processShardData, calcStage, filterStage, groupStage, sortStage, limitStage,
    applyCalc, durationMinutes, tripToRow_get_started_at, tripToRow_get_ended_at, h1, h2]

/-- C1: amended — a `duration_minutes` calculate step stores
`Math.round((ended_at − started_at) / 60000)`, where `Math.round` rounds ties
toward `+∞` (not away from zero): a 15.5-minute difference yields 16, but a
−15.5-minute difference yields −15. -/
theorem C1_duration_minutes_rounding :
    (∀ (t : Trip) (n : String) (a b : ℤ),
        parseTs t.started_at = some a → parseTs t.ended_at = some b →
        processShardData [t] { calculate := some [⟨n, "duration_minutes"⟩] } =
          [(tripToRow t).set n (.jnum (.num (jsRound (((b : ℚ) - (a : ℚ)) / 60000))))]) ∧
    jsRound (31 / 2) = 16 ∧ jsRound (-(31 / 2)) = -15 := by
  refine ⟨processShardData_single_duration, ?_, ?_⟩
  · rw [jsRound, show ((31 : ℚ) / 2 + 1 / 2) = ((16 : ℤ) : ℚ) by norm_num, Int.floor_intCast]
  · rw [jsRound, show (-((31 : ℚ) / 2) + 1 / 2) = ((-15 : ℤ) : ℚ) by norm_num, Int.floor_intCast]

/-- Witness for C1 at the 15.5-minute trip `baseTrip`. -/
theorem C1_duration_minutes_rounding_witness :
    parseTs baseTrip.started_at = some 1672786800000 ∧
    parseTs baseTrip.ended_at = some 1672787730000 ∧
    processShardData [baseTrip] { calculate := some [⟨"dur", "duration_minutes"⟩] } =
      [(tripToRow baseTrip).set "dur"
        (.jnum (.num (jsRound ((((1672787730000 : ℤ) : ℚ) - ((1672786800000 : ℤ) : ℚ)) / 60000))))] :=
  ⟨rfl, rfl,
   C1_duration_minutes_rounding.1 baseTrip "dur" 1672786800000 1672787730000 rfl rfl⟩

/-- C1: counterexample to the claim as stated — for a trip whose timestamps
are 15.5 minutes apart in the negative direction the engine stores −15
(`Math.round` ties toward `+∞`), while rounding half away from zero would
give −16. -/
theorem C1_counterexample :
    ((parseTs tripNegDur.ended_at).getD 0 - (parseTs tripNegDur.started_at).getD 0 : ℚ) / 60000 =
      -(31 / 2) ∧
    processShardData [tripNegDur] { calculate := some [⟨"duration_minutes", "duration_minutes"⟩] } =
      [(tripToRow tripNegDur).set "duration_minutes" (.jnum (.num (-15)))] ∧
    specRoundHalfAwayFromZero (-(31 / 2)) = -16 ∧ ((-15 : ℚ) ≠ -16) := by
  have hs : parseTs tripNegDur.started_at = some 1672787730000 := rfl
  have he : parseTs tripNegDur.ended_at = some 1672786800000 := rfl
  refine ⟨?_, ?_, ?_, by norm_num⟩
  · rw [hs, he]; norm_num
  · rw [processShardData_single_duration tripNegDur "duration_minutes" _ _ hs he]
    norm_num [jsRound]
  · rw [specRoundHalfAwayFromZero, if_neg (by norm_num),
      show (-(-((31 : ℚ) / 2)) + 1 / 2) = ((16 : ℤ) : ℚ) by norm_num, Int.floor_intCast]

/-! ### Lemmas about `JNum` minima and maxima -/

namespace JNum

theorem jmin_choice (a b : JNum) : jmin a b = a ∨ jmin a b = b := by
  cases a <;> cases b
  case num.num p q =>
    rcases le_total p q with h | h
    · left; simp [jmin, min_eq_left h]
    · right; simp [jmin, min_eq_right h]
  all_goals first | exact Or.inl rfl | exact Or.inr rfl

theorem jmax_choice (a b : JNum) : jmax a b = a ∨ jmax a b = b := by
  cases a <;> cases b
  case num.num p q =>
    rcases le_total p q with h | h
    · right; simp [jmax, max_eq_right h]
    · left; simp [jmax, max_eq_left h]
  all_goals first | exact Or.inl rfl | exact Or.inr rfl

theorem jmin_ne_nan {a b : JNum} (ha : a ≠ nan) (hb : b ≠ nan) : jmin a b ≠ nan := by
  rcases jmin_choice a b with h | h <;> simp [h, ha, hb]

theorem jmax_ne_nan {a b : JNum} (ha : a ≠ nan) (hb : b ≠ nan) : jmax a b ≠ nan := by
  rcases jmax_choice a b with h | h <;> simp [h, ha, hb]

theorem leb_refl {a : JNum} (ha : a ≠ nan) : a.leb a = true := by
  cases a <;> simp_all [leb]

theorem leb_trans {a b c : JNum} (hab : a.leb b = true) (hbc : b.leb c = true) :
    a.leb c = true := by
  cases a <;> cases b <;> cases c <;> simp_all [leb]
  exact le_trans hab hbc

theorem jmin_leb_left {a b : JNum} (ha : a ≠ nan) (hb : b ≠ nan) :
    (jmin a b).leb a = true := by
  cases a <;> cases b <;> simp_all [jmin, leb, min_le_left]

theorem jmin_leb_right {a b : JNum} (ha : a ≠ nan) (hb : b ≠ nan) :
    (jmin a b).leb b = true := by
  cases a <;> cases b <;> simp_all [jmin, leb, min_le_right]

theorem leb_jmax_left {a b : JNum} (ha : a ≠ nan) (hb : b ≠ nan) :
    a.leb (jmax a b) = true := by
  cases a <;> cases b <;> simp_all [jmax, leb, le_max_left]

theorem leb_jmax_right {a b : JNum} (ha : a ≠ nan) (hb : b ≠ nan) :
    b.leb (jmax a b) = true := by
  cases a <;> cases b <;> simp_all [jmax, leb, le_max_right]

theorem jmin_posInf {b : JNum} (hb : b ≠ nan) : jmin posInf b = b := by
  cases b <;> simp_all [jmin]

theorem jmax_negInf {b : JNum} (hb : b ≠ nan) : jmax negInf b = b := by
  cases b <;> simp_all [jmax]

end JNum

theorem foldl_jmin_ne_nan {l : List JNum} {a : JNum} (ha : a ≠ .nan)
    (hl : ∀ x ∈ l, x ≠ .nan) : l.foldl JNum.jmin a ≠ .nan := by
  induction l generalizing a with
  | nil => exact ha
  | cons x xs ih =>
      exact ih (JNum.jmin_ne_nan ha (hl x (List.mem_cons_self x xs)))
        (fun y hy => hl y (List.mem_cons_of_mem x hy))

theorem foldl_jmax_ne_nan {l : List JNum} {a : JNum} (ha : a ≠ .nan)
    (hl : ∀ x ∈ l, x ≠ .nan) : l.foldl JNum.jmax a ≠ .nan := by
  induction l generalizing a with
  | nil => exact ha
  | cons x xs ih =>
      exact ih (JNum.jmax_ne_nan ha (hl x (List.mem_cons_self x xs)))
        (fun y hy => hl y (List.mem_cons_of_mem x hy))

theorem foldl_jmin_mem : ∀ (l : List JNum) (a : JNum),
    l.foldl JNum.jmin a = a ∨ l.foldl JNum.jmin a ∈ l := by
  intro l
  induction l with
  | nil => intro a; left; rfl
  | cons x xs ih =>
      intro a
      have hg : (x :: xs).foldl JNum.jmin a = xs.foldl JNum.jmin (JNum.jmin a x) := rfl
      rcases ih (JNum.jmin a x) with h | h
      · rcases JNum.jmin_choice a x with hm | hm
        · left; rw [hg, h, hm]
        · right; rw [hg, h, hm]; exact List.mem_cons_self x xs
      · right; rw [hg]; exact List.mem_cons_of_mem x h

theorem foldl_jmax_mem : ∀ (l : List JNum) (a : JNum),
    l.foldl JNum.jmax a = a ∨ l.foldl JNum.jmax a ∈ l := by
  intro l
  induction l with
  | nil => intro a; left; rfl
  | cons x xs ih =>
      intro a
      have hg : (x :: xs).foldl JNum.jmax a = xs.foldl JNum.jmax (JNum.jmax a x) := rfl
      rcases ih (JNum.jmax a x) with h | h
      · rcases JNum.jmax_choice a x with hm | hm
        · left; rw [hg, h, hm]
        · right; rw [hg, h, hm]; exact List.mem_cons_self x xs
      · right; rw [hg]; exact List.mem_cons_of_mem x h

theorem foldl_jmin_leb {l : List JNum} {a : JNum} (ha : a ≠ .nan)
    (hl : ∀ x ∈ l, x ≠ .nan) :
    (l.foldl JNum.jmin a).leb a = true ∧ ∀ x ∈ l, (l.foldl JNum.jmin a).leb x = true := by
  induction l generalizing a with
  | nil => exact ⟨JNum.leb_refl ha, by simp⟩
  | cons x xs ih =>
      have hx : x ≠ .nan := hl x (List.mem_cons_self x xs)
      have hxs : ∀ y ∈ xs, y ≠ JNum.nan := fun y hy => hl y (List.mem_cons_of_mem x hy)
      have hax : JNum.jmin a x ≠ .nan := JNum.jmin_ne_nan ha hx
      obtain ⟨h1, h2⟩ := ih hax hxs
      have hg : (x :: xs).foldl JNum.jmin a = xs.foldl JNum.jmin (JNum.jmin a x) := rfl
      constructor
      · rw [hg]; exact JNum.leb_trans h1 (JNum.jmin_leb_left ha hx)
      · intro y hy
        rcases List.mem_cons.mp hy with hyx | hy
        · rw [hg, hyx]; exact JNum.leb_trans h1 (JNum.jmin_leb_right ha hx)
        · rw [hg]; exact h2 y hy

theorem foldl_jmax_geb {l : List JNum} {a : JNum} (ha : a ≠ .nan)
    (hl : ∀ x ∈ l, x ≠ .nan) :
    a.leb (l.foldl JNum.jmax a) = true ∧ ∀ x ∈ l, x.leb (l.foldl JNum.jmax a) = true := by
  induction l generalizing a with
  | nil => exact ⟨JNum.leb_refl ha, by simp⟩
  | cons x xs ih =>
      have hx : x ≠ .nan := hl x (List.mem_cons_self x xs)
      have hxs : ∀ y ∈ xs, y ≠ JNum.nan := fun y hy => hl y (List.mem_cons_of_mem x hy)
      have hax : JNum.jmax a x ≠ .nan := JNum.jmax_ne_nan ha hx
      obtain ⟨h1, h2⟩ := ih hax hxs
      have hg : (x :: xs).foldl JNum.jmax a = xs.foldl JNum.jmax (JNum.jmax a x) := rfl
      constructor
      · rw [hg]; exact JNum.leb_trans (JNum.leb_jmax_left ha hx) h1
      · intro y hy
        rcases List.mem_cons.mp hy with hyx | hy
        · rw [hg, hyx]; exact JNum.leb_trans (JNum.leb_jmax_right ha hx) h1
        · rw [hg]; exact h2 y hy

theorem orElse_ne_nan {n d : JNum} (hd : d ≠ .nan) : n.orElse d ≠ .nan := by
  unfold JNum.orElse
  split
  · exact hd
  · next hfal => cases n <;> simp_all [JNum.falsy]

/-- C2: amended — for a non-empty group reduced with a `min` (resp. `max`)
aggregate, the result is the minimum (resp. maximum) over members of the
contribution `Number(member[field]) || ±∞`: a member whose coercion is
*falsy* — missing or non-numeric (`NaN`), but also the numeric value `0` —
contributes the infinite sentinel; only members with a nonzero numeric
coercion contribute their value. -/
theorem C2_min_max_zero_sentinel (g f key : String) (items : List Row)
    (hne : items ≠ []) :
    (∃ vmin : JNum,
      aggregateGroup g (some ⟨"min", f⟩) key items = Row.set [(g, .str key)] "min" (.jnum vmin) ∧
      vmin ∈ items.map
        (fun r => if (toNumber (r.get f)).falsy then JNum.posInf else toNumber (r.get f)) ∧
      ∀ r ∈ items,
        vmin.leb (if (toNumber (r.get f)).falsy then JNum.posInf else toNumber (r.get f)) = true) ∧
    (∃ vmax : JNum,
      aggregateGroup g (some ⟨"max", f⟩) key items = Row.set [(g, .str key)] "max" (.jnum vmax) ∧
      vmax ∈ items.map
        (fun r => if (toNumber (r.get f)).falsy then JNum.negInf else toNumber (r.get f)) ∧
      ∀ r ∈ items,
        (if (toNumber (r.get f)).falsy then JNum.negInf else toNumber (r.get f)).leb vmax = true) := by
  obtain ⟨r0, rest, rfl⟩ := List.exists_cons_of_ne_nil hne
  constructor
  · refine ⟨_, rfl, ?_, ?_⟩
    · show _ ∈ List.map (fun (r : Row) => (toNumber (r.get f)).orElse JNum.posInf) _
      have hgoal : ((r0 :: rest).map (fun r => (toNumber (r.get f)).orElse JNum.posInf)).foldl
            JNum.jmin JNum.posInf =
          (rest.map (fun r => (toNumber (r.get f)).orElse JNum.posInf)).foldl JNum.jmin
            (JNum.jmin JNum.posInf ((toNumber (r0.get f)).orElse JNum.posInf)) := rfl
      rw [hgoal, JNum.jmin_posInf (orElse_ne_nan (by simp))]
      rcases foldl_jmin_mem (rest.map (fun r => (toNumber (r.get f)).orElse JNum.posInf))
          ((toNumber (r0.get f)).orElse JNum.posInf) with h | h
      · rw [h]; exact List.mem_map_of_mem _ (List.mem_cons_self r0 rest)
      · exact List.mem_cons_of_mem _ h
    · intro r hr
      show JNum.leb _ ((toNumber (r.get f)).orElse JNum.posInf) = true
      exact (foldl_jmin_leb (by simp)
        (by intro x hx
            obtain ⟨y, _, rfl⟩ := List.mem_map.mp hx
            exact orElse_ne_nan (by simp))).2 _
        (List.mem_map_of_mem _ hr)
  · refine ⟨_, rfl, ?_, ?_⟩
    · show _ ∈ List.map (fun (r : Row) => (toNumber (r.get f)).orElse JNum.negInf) _
      have hgoal : ((r0 :: rest).map (fun r => (toNumber (r.get f)).orElse JNum.negInf)).foldl
            JNum.jmax JNum.negInf =
          (rest.map (fun r => (toNumber (r.get f)).orElse JNum.negInf)).foldl JNum.jmax
            (JNum.jmax JNum.negInf ((toNumber (r0.get f)).orElse JNum.negInf)) := rfl
      rw [hgoal, JNum.jmax_negInf (orElse_ne_nan (by simp))]
      rcases foldl_jmax_mem (rest.map (fun r => (toNumber (r.get f)).orElse JNum.negInf))
          ((toNumber (r0.get f)).orElse JNum.negInf) with h | h
      · rw [h]; exact List.mem_map_of_mem _ (List.mem_cons_self r0 rest)
      · exact List.mem_cons_of_mem _ h
    · intro r hr
      show JNum.leb ((toNumber (r.get f)).orElse JNum.negInf) _ = true
      exact (foldl_jmax_geb (by simp)
        (by intro x hx
            obtain ⟨y, _, rfl⟩ := List.mem_map.mp hx
            exact orElse_ne_nan (by simp))).2 _
        (List.mem_map_of_mem _ hr)

/-- Witness for C2 on a two-member group whose latitudes are 40 and 0. -/
theorem C2_min_max_zero_sentinel_witness :
    ([tripToRow baseTrip, tripToRow tripLatZero] : List Row) ≠ [] ∧
    (∃ vmin : JNum,
      aggregateGroup "member_casual" (some ⟨"min", "start_lat"⟩) "member"
          [tripToRow baseTrip, tripToRow tripLatZero] =
        Row.set [("member_casual", .str "member")] "min" (.jnum vmin) ∧
      vmin ∈ ([tripToRow baseTrip, tripToRow tripLatZero] : List Row).map
        (fun r => if (toNumber (r.get "start_lat")).falsy then JNum.posInf
                  else toNumber (r.get "start_lat")) ∧
      ∀ r ∈ ([tripToRow baseTrip, tripToRow tripLatZero] : List Row),
        vmin.leb (if (toNumber (r.get "start_lat")).falsy then JNum.posInf
                  else toNumber (r.get "start_lat")) = true) :=
  ⟨by simp,
   (C2_min_max_zero_sentinel "member_casual" "start_lat" "member"
     [tripToRow baseTrip, tripToRow tripLatZero] (by simp)).1⟩

/-- C2: counterexample to the claim as stated — a member that carries the
numeric value `0` for the aggregate field does *not* contribute `0`: the
falsy coercion `Number(x) || Infinity` replaces it by the sentinel, and the
single-member group yields `Infinity`, not `0`. -/
theorem C2_counterexample :
    processShardData [tripLatZero]
        { groupBy := some "member_casual", aggregate := some ⟨"min", "start_lat"⟩ } =
      [[("member_casual", .str "member"), ("min", .jnum .posInf)]] ∧
    toNumber ((tripToRow tripLatZero).get "start_lat") = .num 0 ∧
    JNum.posInf ≠ .num 0 :=
  ⟨rfl, rfl, by simp⟩

/-! ### Lemmas about the merged hourly histogram -/

theorem bumpAt_length : ∀ (l : List ℚ) (i : Nat) (c : ℚ), (bumpAt l i c).length = l.length := by
  intro l
  induction l with
  | nil => intro i c; rfl
  | cons x xs ih =>
      intro i c
      cases i with
      | zero => rfl
      | succ i => simpa [bumpAt] using ih i c

theorem foldl_bumpAt_length (ps : List (Nat × ℚ)) :
    ∀ (acc : List ℚ), (ps.foldl (fun a p => bumpAt a p.1 p.2) acc).length = acc.length := by
  induction ps with
  | nil => intro acc; rfl
  | cons p ps ih => intro acc; simpa [bumpAt_length] using (ih (bumpAt acc p.1 p.2)).trans (bumpAt_length acc p.1 p.2)

theorem histAdd_length (acc hist : List ℚ) : (histAdd acc hist).length = acc.length :=
  foldl_bumpAt_length _ acc

theorem mergedHist_length (days : List IndexDayData) :
    ∀ (acc : List ℚ),
      (days.foldl (fun acc day => histAdd acc day.hourly_distribution) acc).length = acc.length := by
  induction days with
  | nil => intro acc; rfl
  | cons d ds ih => intro acc; simpa [histAdd_length] using (ih (histAdd acc d.hourly_distribution)).trans (histAdd_length acc d.hourly_distribution)

/-- C8: `peak_hour` of a rollup bucket is the index of the maximum entry of
the bucket's merged 24-entry hourly distribution, and when several hours
share the maximum the lowest index wins: every entry is `≤` the entry at
`peak_hour`, and every entry strictly before `peak_hour` is strictly
smaller. -/
theorem C8_peak_hour_first_max (key : String) (days : List IndexDayData) :
    (transformGroup key days).hourly_distribution.length = 24 ∧
    0 ≤ (transformGroup key days).peak_hour ∧
    (transformGroup key days).peak_hour < 24 ∧
    (∀ j < 24, (transformGroup key days).hourly_distribution.getD j 0 ≤
      (transformGroup key days).hourly_distribution.getD
        (transformGroup key days).peak_hour.toNat 0) ∧
    (∀ j < (transformGroup key days).peak_hour.toNat,
      (transformGroup key days).hourly_distribution.getD j 0 <
        (transformGroup key days).hourly_distribution.getD
          (transformGroup key days).peak_hour.toNat 0) := by
  have hmlen : (transformGroup key days).hourly_distribution.length = 24 := by
    simpa [transformGroup] using
      mergedHist_length days (List.replicate 24 (0 : ℚ))
  set m := (transformGroup key days).hourly_distribution with hm
  have hne : m ≠ [] := by
    intro h
    rw [h] at hmlen
    simp at hmlen
  have hmax : spreadMax m ∈ m := spreadMax_mem hne
  obtain ⟨i, hi⟩ := findIdx?_mem (spreadMax m) m hmax
  obtain ⟨hilen, hival, hifirst⟩ := findIdx?_some_spec (spreadMax m) m i hi
  have hfold : (List.foldl (fun acc day => histAdd acc day.hourly_distribution)
      (List.replicate 24 (0 : ℚ)) days) = m := rfl
  have hpeak : (transformGroup key days).peak_hour = (i : ℤ) := by
    simp only [transformGroup, jsIndexOf, hfold, hi]
  have htoNat : (transformGroup key days).peak_hour.toNat = i := by rw [hpeak]; exact Int.toNat_natCast i
  refine ⟨hmlen, by rw [hpeak]; exact Int.natCast_nonneg i, by rw [hpeak]; exact_mod_cast hmlen ▸ hilen, ?_, ?_⟩
  · intro j hj
    rw [htoNat, hival]
    have hjlen : j < m.length := by rw [hmlen]; exact hj
    rw [List.getD_eq_getElem _ _ hjlen]
    exact spreadMax_ub (List.getElem_mem hjlen)
  · intro j hj
    rw [htoNat] at hj
    rw [htoNat, hival]
    have hjlen : j < m.length := lt_trans hj hilen
    refine lt_of_le_of_ne ?_ ?_
    · rw [List.getD_eq_getElem _ _ hjlen]
      exact spreadMax_ub (List.getElem_mem hjlen)
    · exact hifirst j hj

/-! ### Lemmas about the running-total objects of the top-list merge -/

theorem getCount_upsertAdd_self (o : List (String × ℚ)) (k : String) (c : ℚ) :
    getCount (upsertAdd o k c) k = getCount o k + c := by
  induction o with
  | nil => simp [upsertAdd, getCount]
  | cons p ps ih =>
      rcases hpk : (p.1 == k) with _ | _
      · simp [upsertAdd, getCount, hpk, ih]
      · simp [upsertAdd, getCount, hpk]

theorem getCount_upsertAdd_other (o : List (String × ℚ)) {k k' : String} (c : ℚ)
    (h : (k == k') = false) : getCount (upsertAdd o k c) k' = getCount o k' := by
  induction o with
  | nil => simp [upsertAdd, getCount, h]
  | cons p ps ih =>
      rcases hpk : (p.1 == k) with _ | _
      · simp [upsertAdd, getCount, hpk, ih]
      · have hp1 : p.1 = k := by simpa using hpk
        have hpk' : (p.1 == k') = false := by rw [hp1]; exact h
        simp [upsertAdd, getCount, hpk, hpk']

theorem foldl_upsert_getCount :
    ∀ (L : List (String × ℚ)) (o : List (String × ℚ)) (n : String),
      getCount (L.foldl (fun o p => upsertAdd o p.1 p.2) o) n = getCount o n + pairTotal L n := by
  intro L
  induction L with
  | nil => intro o n; simp [pairTotal]
  | cons p ps ih =>
      intro o n
      have hstep : ((p :: ps).foldl (fun o q => upsertAdd o q.1 q.2) o) =
          ps.foldl (fun o q => upsertAdd o q.1 q.2) (upsertAdd o p.1 p.2) := rfl
      rw [hstep, ih]
      rcases hpn : (p.1 == n) with _ | _
      · rw [getCount_upsertAdd_other o p.2 hpn]
        simp [pairTotal, hpn]
      · have hp1 : p.1 = n := by simpa using hpn
        rw [← hp1, getCount_upsertAdd_self]
        simp [pairTotal, hpn, hp1]
        ring

theorem upsertAdd_keys_mem {o : List (String × ℚ)} {k : String} (c : ℚ)
    (h : k ∈ o.map Prod.fst) :
    (upsertAdd o k c).map Prod.fst = o.map Prod.fst := by
  induction o with
  | nil => simp at h
  | cons p ps ih =>
      rcases hpk : (p.1 == k) with _ | _
      · have hk : k ∈ ps.map Prod.fst := by
          rcases List.mem_cons.mp h with h1 | h1
          · exact absurd (by simp [h1.symm]) (by simp [hpk] : ¬(p.1 == k) = true)
          · exact h1
        simp [upsertAdd, hpk, ih hk]
      · simp [upsertAdd, hpk]

theorem upsertAdd_keys_not_mem {o : List (String × ℚ)} {k : String} (c : ℚ)
    (h : k ∉ o.map Prod.fst) :
    (upsertAdd o k c).map Prod.fst = o.map Prod.fst ++ [k] := by
  induction o with
  | nil => simp [upsertAdd]
  | cons p ps ih =>
      have hpk : (p.1 == k) = false := by
        rcases hb : (p.1 == k) with _ | _
        · rfl
        · exact absurd (by simp [(by simpa using hb : p.1 = k)]) h
      have hk : k ∉ ps.map Prod.fst := fun hk => h (List.mem_cons_of_mem _ hk)
      simp [upsertAdd, hpk, ih hk]

theorem upsertAdd_keys_nodup {o : List (String × ℚ)} {k : String} (c : ℚ)
    (h : (o.map Prod.fst).Nodup) : ((upsertAdd o k c).map Prod.fst).Nodup := by
  by_cases hk : k ∈ o.map Prod.fst
  · rw [upsertAdd_keys_mem c hk]; exact h
  · rw [upsertAdd_keys_not_mem c hk]
    simp [List.nodup_append, h, hk]

theorem upsertAdd_keys_sub {o : List (String × ℚ)} {k k' : String} (c : ℚ)
    (h : k' ∈ (upsertAdd o k c).map Prod.fst) : k' ∈ o.map Prod.fst ∨ k' = k := by
  by_cases hk : k ∈ o.map Prod.fst
  · rw [upsertAdd_keys_mem c hk] at h; exact Or.inl h
  · rw [upsertAdd_keys_not_mem c hk] at h
    rcases List.mem_append.mp h with h1 | h1
    · exact Or.inl h1
    · exact Or.inr (by simpa using h1)

theorem foldl_upsert_keys_nodup :
    ∀ (L : List (String × ℚ)) (o : List (String × ℚ)),
      (o.map Prod.fst).Nodup → ((L.foldl (fun o p => upsertAdd o p.1 p.2) o).map Prod.fst).Nodup := by
  intro L
  induction L with
  | nil => intro o h; exact h
  | cons p ps ih => intro o h; exact ih _ (upsertAdd_keys_nodup p.2 h)

theorem foldl_upsert_keys_sub :
    ∀ (L : List (String × ℚ)) (o : List (String × ℚ)) (k : String),
      k ∈ (L.foldl (fun o p => upsertAdd o p.1 p.2) o).map Prod.fst →
      k ∈ o.map Prod.fst ∨ k ∈ L.map Prod.fst := by
  intro L
  induction L with
  | nil => intro o k h; exact Or.inl h
  | cons p ps ih =>
      intro o k h
      rcases ih _ k h with h1 | h1
      · rcases upsertAdd_keys_sub p.2 h1 with h2 | h2
        · exact Or.inl h2
        · exact Or.inr (by simp [h2])
      · exact Or.inr (List.mem_cons_of_mem _ h1)

theorem mem_nodup_getCount :
    ∀ {o : List (String × ℚ)} {n : String} {c : ℚ},
      (o.map Prod.fst).Nodup → (n, c) ∈ o → getCount o n = c := by
  intro o
  induction o with
  | nil => intro n c _ h; cases h
  | cons p ps ih =>
      intro n c hnd hmem
      rw [List.map_cons, List.nodup_cons] at hnd
      rcases List.mem_cons.mp hmem with h1 | h1
      · simp [getCount, ← h1]
      · have hn : n ∈ ps.map Prod.fst := List.mem_map_of_mem Prod.fst h1
        have hne : (p.1 == n) = false := by
          rcases hb : (p.1 == n) with _ | _
          · rfl
          · exact absurd (by rw [(by simpa using hb : p.1 = n)]; exact hn) hnd.1
        simp only [getCount]
        rw [if_neg (by simp [hne])]
        exact ih hnd.2 h1

theorem mem_jsEntries {α : Type} {o : List (String × α)} {x : String × α} :
    x ∈ jsEntries o ↔ x ∈ o := by
  unfold jsEntries
  rw [List.mem_append, mem_insSort]
  constructor
  · rintro (h | h)
    · exact (List.mem_filter.mp h).1
    · exact (List.mem_filter.mp h).1
  · intro h
    by_cases hidx : (arrayIndexOf x.1).isSome
    · exact Or.inl (List.mem_filter.mpr ⟨h, by simpa using hidx⟩)
    · exact Or.inr (List.mem_filter.mpr ⟨h, by simpa [Option.isNone_iff_eq_none] using
        (by simpa [Option.not_isSome_iff_eq_none] using hidx : arrayIndexOf x.1 = none)⟩)

theorem topEntries_length (counts : List (String × ℚ)) :
    (topEntries counts).length ≤ 10 := by
  simp [topEntries]

theorem topEntries_sorted (counts : List (String × ℚ)) :
    (topEntries counts).Pairwise (fun a b => b.2 ≤ a.2) := by
  have h := insSort_pairwise countDescLe
    (fun a b hab => by
      simp only [countDescLe, decide_eq_false_iff_not, not_le] at hab
      simp [countDescLe, le_of_lt hab])
    (fun a b c hab hbc => by
      simp only [countDescLe, decide_eq_true_eq] at hab hbc ⊢
      exact le_trans hbc hab)
    (jsEntries counts)
  have h2 : (insSort countDescLe (jsEntries counts)).Pairwise (fun a b => b.2 ≤ a.2) := by
    refine h.imp ?_
    intro a b hab
    simpa [countDescLe] using hab
  exact List.Pairwise.sublist (List.take_sublist 10 _) h2

theorem topEntries_mem {counts : List (String × ℚ)} {x : String × ℚ}
    (h : x ∈ topEntries counts) : x ∈ counts :=
  mem_jsEntries.mp ((mem_insSort _).mp ((List.take_sublist 10 _).subset h))

theorem double_fold_eq_flat {α : Type} (sel : IndexDayData → List α)
    (pairOf : α → String × ℚ) (days : List IndexDayData) :
    days.foldl (fun o day =>
        (sel day).foldl (fun o x => upsertAdd o (pairOf x).1 (pairOf x).2) o)
      ([] : List (String × ℚ)) =
      ((days.map (fun d => (sel d).map pairOf)).flatten).foldl
        (fun o p => upsertAdd o p.1 p.2) [] := by
  rw [← foldl_over_flatten, List.foldl_map]
  congr 1
  funext o d
  rw [List.foldl_map]

theorem flatten_map_map {α β : Type} (sel : IndexDayData → List α) (pairOf : α → β)
    (days : List IndexDayData) :
    (days.map (fun d => (sel d).map pairOf)).flatten = ((days.map sel).flatten).map pairOf := by
  rw [List.map_flatten, List.map_map]
  rfl

theorem pairTotal_map {α : Type} (pairOf : α → String × ℚ) (L : List α) (n : String) :
    pairTotal (L.map pairOf) n =
      ((L.filter (fun x => (pairOf x).1 == n)).map (fun x => (pairOf x).2)).sum := by
  rw [pairTotal, List.filter_map, List.map_map]
  rfl

theorem getCount_startStationCounts (days : List IndexDayData) (n : String) :
    getCount (startStationCounts days) n = startTotal days n := by
  rw [startStationCounts,
    double_fold_eq_flat (fun d => d.top_start_stations) (fun s => (s.name, s.count)),
    foldl_upsert_getCount, flatten_map_map, pairTotal_map]
  simp [getCount, startTotal]

theorem getCount_endStationCounts (days : List IndexDayData) (n : String) :
    getCount (endStationCounts days) n = endTotal days n := by
  rw [endStationCounts,
    double_fold_eq_flat (fun d => d.top_end_stations) (fun s => (s.name, s.count)),
    foldl_upsert_getCount, flatten_map_map, pairTotal_map]
  simp [getCount, endTotal]

theorem getCount_routeCounts (days : List IndexDayData) (k : String) :
    getCount (routeCounts days) k = routeKeyTotal days k := by
  rw [routeCounts,
    double_fold_eq_flat (fun d => d.top_routes)
      (fun r => (routeKey r.fromName r.toName, r.count)),
    foldl_upsert_getCount, flatten_map_map, pairTotal_map]
  simp [getCount, routeKeyTotal]

theorem startStationCounts_nodup (days : List IndexDayData) :
    ((startStationCounts days).map Prod.fst).Nodup := by
  rw [startStationCounts,
    double_fold_eq_flat (fun d => d.top_start_stations) (fun s => (s.name, s.count))]
  exact foldl_upsert_keys_nodup _ _ (by simp)

theorem endStationCounts_nodup (days : List IndexDayData) :
    ((endStationCounts days).map Prod.fst).Nodup := by
  rw [endStationCounts,
    double_fold_eq_flat (fun d => d.top_end_stations) (fun s => (s.name, s.count))]
  exact foldl_upsert_keys_nodup _ _ (by simp)

theorem routeCounts_nodup (days : List IndexDayData) :
    ((routeCounts days).map Prod.fst).Nodup := by
  rw [routeCounts,
    double_fold_eq_flat (fun d => d.top_routes)
      (fun r => (routeKey r.fromName r.toName, r.count))]
  exact foldl_upsert_keys_nodup _ _ (by simp)

theorem routeCounts_keys_sub {days : List IndexDayData} {k : String}
    (h : k ∈ (routeCounts days).map Prod.fst) :
    ∃ r ∈ ((days.map (fun d => d.top_routes)).flatten),
      k = routeKey r.fromName r.toName := by
  rw [routeCounts,
    double_fold_eq_flat (fun d => d.top_routes)
      (fun r => (routeKey r.fromName r.toName, r.count))] at h
  rcases foldl_upsert_keys_sub _ _ _ h with h1 | h1
  · simp at h1
  · rw [flatten_map_map, List.map_map] at h1
    obtain ⟨r, hr, hk⟩ := List.mem_map.mp h1
    exact ⟨r, hr, hk.symm⟩

/-! ### Splitting route keys -/

theorem splitOnChar_no_sep {sep : Char} :
    ∀ {cs : List Char}, sep ∉ cs → splitOnChar sep cs = [cs] := by
  intro cs
  induction cs with
  | nil => intro _; rfl
  | cons c cs ih =>
      intro h
      have hc : ¬(c = sep) := fun hcs => h (hcs ▸ List.mem_cons_self c cs)
      have hcs : sep ∉ cs := fun hm => h (List.mem_cons_of_mem c hm)
      simp [splitOnChar, hc, ih hcs]

theorem splitOnChar_concat {sep : Char} {ds : List Char} (hd : sep ∉ ds) :
    ∀ {cs : List Char}, sep ∉ cs → splitOnChar sep (cs ++ sep :: ds) = [cs, ds] := by
  intro cs
  induction cs with
  | nil => intro _; simp [splitOnChar, splitOnChar_no_sep hd]
  | cons c cs ih =>
      intro h
      have hc : ¬(c = sep) := fun hcs => h (hcs ▸ List.mem_cons_self c cs)
      have hcs : sep ∉ cs := fun hm => h (List.mem_cons_of_mem c hm)
      simp [splitOnChar, hc, ih hcs]

theorem toList_routeKey (f t : String) :
    (routeKey f t).toList = f.toList ++ '→' :: t.toList := by
  show (f ++ "→" ++ t).data = f.data ++ '→' :: t.data
  rw [String.data_append, String.data_append, List.append_assoc]
  rfl

theorem jsSplit_routeKey {f t : String} (hf : '→' ∉ f.toList) (ht : '→' ∉ t.toList) :
    jsSplit '→' (routeKey f t) = [f, t] := by
  rw [jsSplit, toList_routeKey, splitOnChar_concat ht hf]
  show [String.mk f.data, String.mk t.data] = [f, t]
  rfl

theorem routeOfEntry_routeKey {f t : String} (hf : '→' ∉ f.toList)
    (ht : '→' ∉ t.toList) (c : ℚ) :
    routeOfEntry (routeKey f t, c) = ⟨f, t, c⟩ := by
  rw [routeOfEntry]
  show (let parts := jsSplit '→' (routeKey f t)
    TopRoute.mk (parts.headD "") ((parts.get? 1).getD "") c) = _
  rw [jsSplit_routeKey hf ht]
  rfl

theorem routeKey_inj {f t f' t' : String} (hf : '→' ∉ f.toList) (ht : '→' ∉ t.toList)
    (hf' : '→' ∉ f'.toList) (ht' : '→' ∉ t'.toList)
    (h : routeKey f t = routeKey f' t') : f = f' ∧ t = t' := by
  have h1 := jsSplit_routeKey hf ht
  rw [h, jsSplit_routeKey hf' ht'] at h1
  exact ⟨(List.cons.injEq _ _ _ _ ▸ h1).1.symm, by
    injection h1 with h2 h3
    injection h3 with h4 _
    exact h4.symm⟩

theorem routeKeyTotal_eq_pairTotal {days : List IndexDayData} {f t : String}
    (harr : ∀ r ∈ (days.map (fun d => d.top_routes)).flatten,
      '→' ∉ r.fromName.toList ∧ '→' ∉ r.toName.toList)
    (hf : '→' ∉ f.toList) (ht : '→' ∉ t.toList) :
    routeKeyTotal days (routeKey f t) = routePairTotal days f t := by
  rw [routeKeyTotal, routePairTotal]
  congr 1
  apply congrArg
  apply List.filter_congr
  intro r hr
  obtain ⟨hrf, hrt⟩ := harr r hr
  by_cases h1 : r.fromName = f ∧ r.toName = t
  · rw [h1.1, h1.2]; simp
  · have h2 : routeKey r.fromName r.toName ≠ routeKey f t := fun he =>
      h1 (routeKey_inj hrf hrt hf ht he)
    have hkeq : (routeKey r.fromName r.toName == routeKey f t) = false := by
      simpa using h2
    rw [hkeq]
    rcases hbf : (r.fromName == f) with _ | _
    · simp
    · have hft : r.fromName = f := by simpa using hbf
      have htne : (r.toName == t) = false := by
        simpa using fun hh => h2 (by rw [hft, hh])
      simp [htne]

/-- C7: amended — each merged top list of a rollup bucket sums the listed
counts across member days per station name (for routes: per concatenated
`from→to` key), sorts descending by the summed total and truncates to at most
10 entries.  A station appearing in several member days has its counts summed
before ranking, and the lists never exceed 10 entries.  When no member
route's station names contain the reserved `'→'` character, the route totals
are exactly per `from`/`to` pair. -/
theorem C7_top_list_merge (key : String) (days : List IndexDayData) :
    ((transformGroup key days).top_start_stations.length ≤ 10 ∧
     (transformGroup key days).top_start_stations.Pairwise (fun a b => b.count ≤ a.count) ∧
     ∀ e ∈ (transformGroup key days).top_start_stations, e.count = startTotal days e.name) ∧
    ((transformGroup key days).top_end_stations.length ≤ 10 ∧
     (transformGroup key days).top_end_stations.Pairwise (fun a b => b.count ≤ a.count) ∧
     ∀ e ∈ (transformGroup key days).top_end_stations, e.count = endTotal days e.name) ∧
    ((transformGroup key days).top_routes.length ≤ 10 ∧
     (transformGroup key days).top_routes.Pairwise (fun a b => b.count ≤ a.count) ∧
     ((∀ r ∈ (days.map (fun d => d.top_routes)).flatten,
         '→' ∉ r.fromName.toList ∧ '→' ∉ r.toName.toList) →
       ∀ e ∈ (transformGroup key days).top_routes,
         (∃ r ∈ (days.map (fun d => d.top_routes)).flatten,
            r.fromName = e.fromName ∧ r.toName = e.toName) ∧
         e.count = routePairTotal days e.fromName e.toName)) := by
  have hstart : (transformGroup key days).top_start_stations =
      (topEntries (startStationCounts days)).map (fun p => ⟨p.1, p.2⟩) := rfl
  have hend : (transformGroup key days).top_end_stations =
      (topEntries (endStationCounts days)).map (fun p => ⟨p.1, p.2⟩) := rfl
  have hroutes : (transformGroup key days).top_routes =
      (topEntries (routeCounts days)).map routeOfEntry := rfl
  refine ⟨⟨?_, ?_, ?_⟩, ⟨?_, ?_, ?_⟩, ⟨?_, ?_, ?_⟩⟩
  · rw [hstart, List.length_map]; exact topEntries_length _
  · rw [hstart]
    exact List.pairwise_map.mpr ((topEntries_sorted _).imp (fun h => h))
  · intro e he
    rw [hstart] at he
    obtain ⟨p, hp, rfl⟩ := List.mem_map.mp he
    show p.2 = startTotal days p.1
    rw [← mem_nodup_getCount (startStationCounts_nodup days) (topEntries_mem hp)]
    exact getCount_startStationCounts days p.1
  · rw [hend, List.length_map]; exact topEntries_length _
  · rw [hend]
    exact List.pairwise_map.mpr ((topEntries_sorted _).imp (fun h => h))
  · intro e he
    rw [hend] at he
    obtain ⟨p, hp, rfl⟩ := List.mem_map.mp he
    show p.2 = endTotal days p.1
    rw [← mem_nodup_getCount (endStationCounts_nodup days) (topEntries_mem hp)]
    exact getCount_endStationCounts days p.1
  · rw [hroutes, List.length_map]; exact topEntries_length _
  · rw [hroutes]
    exact List.pairwise_map.mpr ((topEntries_sorted _).imp (fun h => h))
  · intro harr e he
    rw [hroutes] at he
    obtain ⟨p, hp, rfl⟩ := List.mem_map.mp he
    have hpc : p ∈ routeCounts days := topEntries_mem hp
    obtain ⟨r, hr, hk⟩ := routeCounts_keys_sub (List.mem_map_of_mem Prod.fst hpc)
    obtain ⟨hrf, hrt⟩ := harr r hr
    have hentry : routeOfEntry p = ⟨r.fromName, r.toName, p.2⟩ := by
      have hp2 : p = (routeKey r.fromName r.toName, p.2) := by
        rw [← hk]
      rw [hp2]
      exact routeOfEntry_routeKey hrf hrt p.2
    rw [hentry]
    refine ⟨⟨r, hr, rfl, rfl⟩, ?_⟩
    show p.2 = routePairTotal days r.fromName r.toName
    rw [← routeKeyTotal_eq_pairTotal harr hrf hrt, ← hk,
      ← getCount_routeCounts days p.1]
    exact (mem_nodup_getCount (routeCounts_nodup days) hpc).symm

/-- Witness for C7 on two overlapping arrow-free days. -/
theorem C7_top_list_merge_witness :
    (∀ r ∈ (([dayOne, dayTwo].map (fun d => d.top_routes)).flatten),
       '→' ∉ r.fromName.toList ∧ '→' ∉ r.toName.toList) ∧
    (∀ e ∈ (transformGroup "w" [dayOne, dayTwo]).top_start_stations,
       e.count = startTotal [dayOne, dayTwo] e.name) ∧
    (∀ e ∈ (transformGroup "w" [dayOne, dayTwo]).top_routes,
       (∃ r ∈ (([dayOne, dayTwo].map (fun d => d.top_routes)).flatten),
          r.fromName = e.fromName ∧ r.toName = e.toName) ∧
       e.count = routePairTotal [dayOne, dayTwo] e.fromName e.toName) :=
  ⟨by decide, (C7_top_list_merge "w" [dayOne, dayTwo]).1.2.2,
   fun e he => (C7_top_list_merge "w" [dayOne, dayTwo]).2.2.2.2 (by decide) e he⟩

/-- C7: counterexample to the claim's per-pair reading for routes — with a
member route `("A", "B→C")`, the merged list's entry is displayed as the pair
`("A", "B")` with count 1, yet the summed count listed across member days for
the exact pair `("A", "B")` is 0: route counts are keyed by the concatenated
string, not by the from/to pair. -/
theorem C7_counterexample :
    (transformGroup "p" [dayArrow]).top_routes = [⟨"A", "B", 1⟩] ∧
    routePairTotal [dayArrow] "A" "B" = 0 ∧ (1 : ℚ) ≠ 0 :=
  ⟨rfl, rfl, by norm_num⟩

/-- C10: amended — route identity in the rollup merge is the concatenated
string `from + '→' + to`, and each output entry's from/to are recovered by
splitting that key on `'→'`; for every bucket in which no member route's
from-station *or to-station* name contains `'→'`, every output entry's
from/to equal an input route's from/to exactly.  (The claim's condition on
the from-station alone does not suffice: an arrow inside the *to* name is
also re-split.) -/
theorem C10_route_key_split (key : String) (days : List IndexDayData) :
    (∀ e ∈ (transformGroup key days).top_routes,
       ∃ p ∈ routeCounts days,
         routeOfEntry p = e ∧
         ∃ r ∈ (days.map (fun d => d.top_routes)).flatten,
           p.1 = routeKey r.fromName r.toName) ∧
    ((∀ r ∈ (days.map (fun d => d.top_routes)).flatten,
        '→' ∉ r.fromName.toList ∧ '→' ∉ r.toName.toList) →
      ∀ e ∈ (transformGroup key days).top_routes,
        ∃ r ∈ (days.map (fun d => d.top_routes)).flatten,
          r.fromName = e.fromName ∧ r.toName = e.toName) := by
  have hroutes : (transformGroup key days).top_routes =
      (topEntries (routeCounts days)).map routeOfEntry := rfl
  constructor
  · intro e he
    rw [hroutes] at he
    obtain ⟨p, hp, rfl⟩ := List.mem_map.mp he
    have hpc : p ∈ routeCounts days := topEntries_mem hp
    obtain ⟨r, hr, hk⟩ := routeCounts_keys_sub (List.mem_map_of_mem Prod.fst hpc)
    exact ⟨p, hpc, rfl, r, hr, hk⟩
  · intro harr e he
    rw [hroutes] at he
    obtain ⟨p, hp, rfl⟩ := List.mem_map.mp he
    have hpc : p ∈ routeCounts days := topEntries_mem hp
    obtain ⟨r, hr, hk⟩ := routeCounts_keys_sub (List.mem_map_of_mem Prod.fst hpc)
    obtain ⟨hrf, hrt⟩ := harr r hr
    have hp2 : p = (routeKey r.fromName r.toName, p.2) := by rw [← hk]
    refine ⟨r, hr, ?_, ?_⟩
    · rw [hp2, routeOfEntry_routeKey hrf hrt]
    · rw [hp2, routeOfEntry_routeKey hrf hrt]

/-- Witness for C10 on two arrow-free days. -/
theorem C10_route_key_split_witness :
    (∀ r ∈ (([dayOne, dayTwo].map (fun d => d.top_routes)).flatten),
       '→' ∉ r.fromName.toList ∧ '→' ∉ r.toName.toList) ∧
    (∀ e ∈ (transformGroup "w2" [dayOne, dayTwo]).top_routes,
       ∃ r ∈ (([dayOne, dayTwo].map (fun d => d.top_routes)).flatten),
         r.fromName = e.fromName ∧ r.toName = e.toName) :=
  ⟨by decide, (C10_route_key_split "w2" [dayOne, dayTwo]).2 (by decide)⟩

/-- C10: counterexample to the claim as stated — the bucket `[dayArrow]`
satisfies the claim's condition (no member route's *from* name contains
`'→'`), yet the output entry's `to` field is `"B"` while the only member
route's `to` field is `"B→C"`: the from-only condition does not guarantee
exact recovery. -/
theorem C10_counterexample :
    dayArrow.top_routes = [⟨"A", "B→C", 1⟩] ∧
    ('→' ∉ "A".toList) ∧
    (transformGroup "p" [dayArrow]).top_routes = [⟨"A", "B", 1⟩] ∧
    ("B" : String) ≠ "B→C" :=
  ⟨rfl, by decide, rfl, by decide⟩

/-! ### The grouping fold as first-occurrence partitioning -/

theorem mem_firstOcc : ∀ {ks : List String} {x : String}, x ∈ firstOcc ks ↔ x ∈ ks := by
  intro ks
  induction ks with
  | nil => intro x; simp [firstOcc]
  | cons k ks ih =>
      intro x
      simp only [firstOcc, List.mem_cons, List.mem_filter, ih, Bool.not_eq_true', beq_eq_false_iff_ne]
      constructor
      · rintro (rfl | ⟨h, _⟩)
        · exact Or.inl rfl
        · exact Or.inr h
      · rintro (rfl | h)
        · exact Or.inl rfl
        · by_cases hxk : x = k
          · exact Or.inl hxk
          · exact Or.inr ⟨h, hxk⟩

theorem firstOcc_nodup : ∀ (ks : List String), (firstOcc ks).Nodup := by
  intro ks
  induction ks with
  | nil => simp [firstOcc]
  | cons k ks ih =>
      refine List.Nodup.cons ?_ (ih.filter _)
      intro hk
      have hcontra := (List.mem_filter.mp hk).2
      simp at hcontra

theorem addToGroups_mem_key {gs : List (String × List Row)} {k : String} (r : Row)
    (hnd : (gs.map Prod.fst).Nodup) (hk : k ∈ gs.map Prod.fst) :
    addToGroups gs k r = gs.map (fun p => if p.1 = k then (p.1, p.2 ++ [r]) else p) := by
  induction gs with
  | nil => simp at hk
  | cons p ps ih =>
      rw [List.map_cons, List.nodup_cons] at hnd
      by_cases hpk : p.1 = k
      · have hfix : ∀ q ∈ ps, (fun p => if p.1 = k then (p.1, p.2 ++ [r]) else p) q = q := by
          intro q hq
          have hq1 : q.1 ≠ k := by
            intro h
            exact hnd.1 (by rw [hpk, ← h]; exact List.mem_map_of_mem Prod.fst hq)
          simp [hq1]
        simp [addToGroups, hpk, List.map_congr_left hfix]
      · have hk' : k ∈ ps.map Prod.fst := by
          rw [List.map_cons] at hk
          rcases List.mem_cons.mp hk with h | h
          · exact absurd h.symm hpk
          · exact h
        simp [addToGroups, hpk, ih hnd.2 hk']

theorem addToGroups_new_key {gs : List (String × List Row)} {k : String} (r : Row)
    (hk : k ∉ gs.map Prod.fst) :
    addToGroups gs k r = gs ++ [(k, [r])] := by
  induction gs with
  | nil => rfl
  | cons p ps ih =>
      have hpk : p.1 ≠ k := fun h => hk (by simp [h])
      have hk' : k ∉ ps.map Prod.fst := fun h => hk (by simp [h])
      simp [addToGroups, hpk, ih hk']

theorem addToGroups_keys_mem {gs : List (String × List Row)} {k : String} (r : Row)
    (hnd : (gs.map Prod.fst).Nodup) (hk : k ∈ gs.map Prod.fst) :
    (addToGroups gs k r).map Prod.fst = gs.map Prod.fst := by
  rw [addToGroups_mem_key r hnd hk, List.map_map]
  apply List.map_congr_left
  intro p _
  by_cases hpk : p.1 = k <;> simp [hpk]

theorem firstOcc_cons (k : String) (ks : List String) :
    firstOcc (k :: ks) = k :: (firstOcc ks).filter (fun x => !(x == k)) := rfl

theorem groupFold_spec (g : String) :
    ∀ (data : List Row) (gs : List (String × List Row)), (gs.map Prod.fst).Nodup →
      data.foldl (fun gs r => addToGroups gs (groupKeyOf g r) r) gs =
        gs.map (fun p => (p.1, p.2 ++ data.filter (fun r => groupKeyOf g r == p.1))) ++
        ((firstOcc (data.map (groupKeyOf g))).filter
            (fun k => !(decide (k ∈ gs.map Prod.fst)))).map
          (fun k => (k, data.filter (fun r => groupKeyOf g r == k))) := by
  intro data
  induction data with
  | nil =>
      intro gs _
      simp [firstOcc]
  | cons r rest ih =>
      intro gs hnd
      have hstep : (r :: rest).foldl (fun gs r => addToGroups gs (groupKeyOf g r) r) gs =
          rest.foldl (fun gs r => addToGroups gs (groupKeyOf g r) r)
            (addToGroups gs (groupKeyOf g r) r) := rfl
      by_cases hmem : groupKeyOf g r ∈ gs.map Prod.fst
      · -- the key already has a group: the record is appended to it
        have hkeys : (addToGroups gs (groupKeyOf g r) r).map Prod.fst = gs.map Prod.fst :=
          addToGroups_keys_mem r hnd hmem
        have hnd' : ((addToGroups gs (groupKeyOf g r) r).map Prod.fst).Nodup := by
          rw [hkeys]; exact hnd
        rw [hstep, ih _ hnd', hkeys, addToGroups_mem_key r hnd hmem, List.map_map]
        congr 1
        · -- existing groups collect the record
          apply List.map_congr_left
          intro p _
          simp only [Function.comp_apply]
          split
          · next hpk =>
              rw [List.filter_cons, if_pos (by simp [hpk])]
              simp
          · next hpk =>
              rw [List.filter_cons,
                if_neg (by simp only [beq_iff_eq]; exact fun h => hpk h.symm)]
        · -- the pending-key list is unchanged
          symm
          simp only [List.map_cons, firstOcc_cons, List.filter_cons]
          rw [if_neg (by simp [hmem]), List.filter_filter]
          rw [List.filter_congr (q := fun k => !(decide (k ∈ gs.map Prod.fst)))
            (fun x hx => by
              by_cases hxk : x = groupKeyOf g r
              · simp [hxk, hmem]
              · simp [hxk])]
          apply List.map_congr_left
          intro k hk
          have hknot : ¬(k ∈ gs.map Prod.fst) := by
            simpa using (List.mem_filter.mp hk).2
          have hkne : ¬(groupKeyOf g r == k) = true := by
            simp only [beq_iff_eq]
            exact fun h => hknot (h ▸ hmem)
          rw [if_neg hkne]
      · -- a new group is created at the end
        have hgs' : addToGroups gs (groupKeyOf g r) r = gs ++ [(groupKeyOf g r, [r])] :=
          addToGroups_new_key r hmem
        have hnd' : ((addToGroups gs (groupKeyOf g r) r).map Prod.fst).Nodup := by
          rw [hgs', List.map_append]
          simp only [List.map_cons, List.map_nil]
          rw [List.nodup_append]
          exact ⟨hnd, List.nodup_singleton _, by simpa using fun h => hmem h⟩
        have hkeys' : (addToGroups gs (groupKeyOf g r) r).map Prod.fst =
            gs.map Prod.fst ++ [groupKeyOf g r] := by
          rw [hgs', List.map_append]
          rfl
        rw [hstep, ih _ hnd', hkeys', hgs']
        rw [List.map_append, List.append_assoc]
        congr 1
        · -- existing groups: the new record does not match any of their keys
          apply List.map_congr_left
          intro p hp
          have hpk : ¬(groupKeyOf g r == p.1) = true := by
            simp only [beq_iff_eq]
            intro h
            exact hmem (h ▸ List.mem_map_of_mem Prod.fst hp)
          rw [List.filter_cons, if_neg hpk]
        · -- the new group plus the later-created groups
          symm
          simp only [List.map_cons, firstOcc_cons, List.filter_cons]
          rw [if_pos (by simpa using hmem), List.filter_filter]
          simp only [List.map_cons]
          congr 1
          · rw [if_pos (by simp)]
            rfl
          · rw [List.filter_congr (q := fun k =>
                !(decide (k ∈ gs.map Prod.fst ++ [groupKeyOf g r])))
              (fun x hx => by
                by_cases hxk : x = groupKeyOf g r
                · simp [hxk]
                · by_cases hxm : x ∈ gs.map Prod.fst
                  · simp [hxm, hxk, List.mem_append]
                  · simp [hxm, hxk, List.mem_append])]
            apply List.map_congr_left
            intro k hk
            have hknot : ¬(k ∈ gs.map Prod.fst ++ [groupKeyOf g r]) := by
              simpa using (List.mem_filter.mp hk).2
            have hkne : ¬(groupKeyOf g r == k) = true := by
              simp only [beq_iff_eq]
              intro h
              exact hknot (by simp [h])
            rw [if_neg hkne]

theorem groupedOf_eq (g : String) (data : List Row) :
    groupedOf g data = (firstOcc (data.map (groupKeyOf g))).map
      (fun k => (k, data.filter (fun r => groupKeyOf g r == k))) := by
  have h := groupFold_spec g data [] (by simp)
  simpa [groupedOf] using h

theorem insOne_map {α β : Type} (f : α → β) (le : β → β → Bool) (le' : α → α → Bool)
    (hle : ∀ a b, le (f a) (f b) = le' a b) (x : α) :
    ∀ (l : List α), insOne le (f x) (l.map f) = (insOne le' x l).map f := by
  intro l
  induction l with
  | nil => rfl
  | cons y ys ih =>
      simp only [List.map_cons, insOne, hle]
      by_cases h : le' x y
      · simp [h]
      · simp [h, ih]

theorem insSort_map {α β : Type} (f : α → β) (le : β → β → Bool) (le' : α → α → Bool)
    (hle : ∀ a b, le (f a) (f b) = le' a b) :
    ∀ (l : List α), insSort le (l.map f) = (insSort le' l).map f := by
  intro l
  induction l with
  | nil => rfl
  | cons x xs ih =>
      simp only [List.map_cons, insSort, List.foldr_cons]
      rw [show List.foldr (insOne le) [] (xs.map f) = insSort le (xs.map f) from rfl, ih]
      exact insOne_map f le le' hle x _

theorem filter_map_comm {α β : Type} (f : α → β) (p : β → Bool) :
    ∀ (l : List α), (l.map f).filter p = (l.filter (fun a => p (f a))).map f := by
  intro l
  induction l with
  | nil => rfl
  | cons x xs ih =>
      simp only [List.map_cons, List.filter_cons]
      by_cases h : p (f x)
      · simp [h, ih]
      · simp [h, ih]

theorem arrayIndexOf_canonical {s : String} {n : Nat} (h : arrayIndexOf s = some n) :
    s = natToString n := by
  unfold arrayIndexOf at h
  simp at h
  rw [← h.2]
  exact h.1.1.2.symm

theorem processShardData_group_plan (trips : List Trip) (fs : Option (List FilterSpec))
    (cs : Option (List CalcSpec)) (g : String) (agg : Option AggregateSpec) (hg : g ≠ "") :
    processShardData trips ⟨fs, cs, some g, agg, none, none⟩ =
      (jsEntries (groupedOf g (filterStage fs (calcStage cs (trips.map tripToRow))))).map
        (fun p => aggregateGroup g agg p.1 p.2) := by
  simp [processShardData, groupStage, sortStage, limitStage, hg]

theorem keyLe_total (a b : String) (hab : keyLe a b = false) : keyLe b a = true := by
  simp only [keyLe, decide_eq_false_iff_not, not_le] at hab
  simp [keyLe, le_of_lt hab]

theorem keyLe_trans (a b c : String) (hab : keyLe a b = true) (hbc : keyLe b c = true) :
    keyLe a c = true := by
  simp only [keyLe, decide_eq_true_eq] at hab hbc ⊢
  exact le_trans hab hbc

/-- C3: amended — with `groupBy` set (and no `orderBy`), the group rows are
emitted in JavaScript object property-enumeration order, not plain insertion
order: stringified keys that are canonical array indices (such as
`"0"`…`"23"`) come first, in ascending numeric order, and only the remaining
keys follow in insertion order of first occurrence among the surviving
records. -/
theorem C3_group_emission_order (trips : List Trip) (fs : Option (List FilterSpec))
    (cs : Option (List CalcSpec)) (g : String) (agg : Option AggregateSpec)
    (hg : g ≠ "") :
    ∃ idx : List String,
      processShardData trips ⟨fs, cs, some g, agg, none, none⟩ =
        (idx ++ (firstOcc ((filterStage fs (calcStage cs (trips.map tripToRow))).map
              (groupKeyOf g))).filter (fun k => (arrayIndexOf k).isNone)).map
          (fun k => aggregateGroup g agg k
            ((filterStage fs (calcStage cs (trips.map tripToRow))).filter
              (fun r => groupKeyOf g r == k))) ∧
      idx.Pairwise (fun a b => (arrayIndexOf a).getD 0 < (arrayIndexOf b).getD 0) ∧
      (∀ k, k ∈ idx ↔
        k ∈ firstOcc ((filterStage fs (calcStage cs (trips.map tripToRow))).map
              (groupKeyOf g)) ∧
          (arrayIndexOf k).isSome = true) := by
  rw [processShardData_group_plan trips fs cs g agg hg, groupedOf_eq]
  generalize filterStage fs (calcStage cs (trips.map tripToRow)) = data
  refine ⟨insSort keyLe ((firstOcc (data.map (groupKeyOf g))).filter
      (fun k => (arrayIndexOf k).isSome)), ?_, ?_, ?_⟩
  · unfold jsEntries
    rw [filter_map_comm (fun k => (k, data.filter (fun r => groupKeyOf g r == k)))
        (fun p => (arrayIndexOf p.1).isSome),
      filter_map_comm (fun k => (k, data.filter (fun r => groupKeyOf g r == k)))
        (fun p => (arrayIndexOf p.1).isNone),
      insSort_map (fun k => (k, data.filter (fun r => groupKeyOf g r == k)))
        idxLe keyLe (fun a b => rfl),
      ← List.map_append, List.map_map]
    rfl
  · have hnd : ((firstOcc (data.map (groupKeyOf g))).filter
        (fun k => (arrayIndexOf k).isSome)).Nodup :=
      (firstOcc_nodup _).filter _
    have hsorted := insSort_pairwise keyLe keyLe_total keyLe_trans
      ((firstOcc (data.map (groupKeyOf g))).filter (fun k => (arrayIndexOf k).isSome))
    have hnodup : (insSort keyLe ((firstOcc (data.map (groupKeyOf g))).filter
        (fun k => (arrayIndexOf k).isSome))).Pairwise (fun a b => a ≠ b) :=
      insSort_nodup keyLe hnd
    refine List.Pairwise.imp_of_mem ?_ (hsorted.and hnodup)
    intro a b ha hb hr
    have hsa : (arrayIndexOf a).isSome := by
      simpa using (List.mem_filter.mp ((mem_insSort keyLe).mp ha)).2
    have hsb : (arrayIndexOf b).isSome := by
      simpa using (List.mem_filter.mp ((mem_insSort keyLe).mp hb)).2
    obtain ⟨na, hna⟩ := Option.isSome_iff_exists.mp hsa
    obtain ⟨nb, hnb⟩ := Option.isSome_iff_exists.mp hsb
    have hle : na ≤ nb := by
      have := hr.1
      simp only [keyLe, hna, hnb, Option.getD_some, decide_eq_true_eq] at this
      exact this
    have hne : na ≠ nb := by
      intro h
      exact hr.2 (by rw [arrayIndexOf_canonical hna, arrayIndexOf_canonical hnb, h])
    rw [hna, hnb]
    exact lt_of_le_of_ne hle hne
  · intro k
    rw [mem_insSort, List.mem_filter]

/-- Witness for C3: grouping two records whose station names are the
integer-like strings `"5"` and `"3"`. -/
theorem C3_group_emission_order_witness :
    (("start_station_name" : String) ≠ "") ∧
    (∃ idx : List String,
      processShardData [tripFrom5, tripFrom3]
          ⟨none, none, some "start_station_name", none, none, none⟩ =
        (idx ++ (firstOcc ((filterStage none
              (calcStage none ([tripFrom5, tripFrom3].map tripToRow))).map
              (groupKeyOf "start_station_name"))).filter
            (fun k => (arrayIndexOf k).isNone)).map
          (fun k => aggregateGroup "start_station_name" none k
            ((filterStage none (calcStage none ([tripFrom5, tripFrom3].map tripToRow))).filter
              (fun r => groupKeyOf "start_station_name" r == k))) ∧
      idx.Pairwise (fun a b => (arrayIndexOf a).getD 0 < (arrayIndexOf b).getD 0) ∧
      (∀ k, k ∈ idx ↔
        k ∈ firstOcc ((filterStage none
              (calcStage none ([tripFrom5, tripFrom3].map tripToRow))).map
              (groupKeyOf "start_station_name")) ∧
          (arrayIndexOf k).isSome = true)) :=
  ⟨by decide,
   C3_group_emission_order [tripFrom5, tripFrom3] none none "start_station_name" none
     (by decide)⟩

/-- C3: counterexample to the claim as stated — records whose group keys are
`"5"` then `"3"` (in insertion order) come back as `"3"` before `"5"`:
integer-like keys of a JS object enumerate in ascending numeric order, not
in insertion order of first occurrence. -/
theorem C3_counterexample :
    processShardData [tripFrom5, tripFrom3] { groupBy := some "start_station_name" } =
      [[("start_station_name", .str "3")], [("start_station_name", .str "5")]] ∧
    processShardData [tripFrom5, tripFrom3] { groupBy := some "start_station_name" } ≠
      [[("start_station_name", .str "5")], [("start_station_name", .str "3")]] := by
  refine ⟨rfl, ?_⟩
  intro h
  have hcomp : processShardData [tripFrom5, tripFrom3] { groupBy := some "start_station_name" } =
      [[("start_station_name", JValue.str "3")], [("start_station_name", JValue.str "5")]] := rfl
  have h' := hcomp.symm.trans h
  injection h' with r1 _
  injection r1 with p1 _
  injection p1 with _ v1
  injection v1 with s1
  exact absurd s1 (by decide)
